import Mathlib

/-!
# Verification of the lattice-rs client SDK core

A shallow embedding, in Lean 4, of the address codec, signing layout,
RLP numeric encoding, keystore, HD derivation, ABI type dispatch and
per-account tip cache of the lattice-rs repository, together with
theorems settling the specification claims about them.

Bytes are modelled as `List Nat` with every entry below 256; machine
integers as `Nat`; Rust `panic!`/`unwrap` failures as `Option.none` or a
dedicated constructor; `Result<T, E>` as `Except`.  External crates
(scrypt, AES-CTR keystreams, HMAC-SHA512, elliptic-curve scalar
multiplication and the raw ECDSA/SM2 verifiers) enter as explicit
function parameters; the hash functions the repository routes through
`hash_message` (SHA-256 and SM3) are implemented in full.
-/

set_option maxRecDepth 400000

namespace LatticeRs

abbrev Bytes := List Nat

/-! ## Hex encoding and decoding (the `hex` crate: lowercase emission,
case-insensitive parsing of even-length strings) -/

/-- Lowercase hex digit for a value below 16. -/
def hexDigitChar (n : Nat) : Char :=
  if n < 10 then Char.ofNat (48 + n) else Char.ofNat (87 + n)

/-- Model of `hex::encode` at the character-list level: two lowercase digits per byte. -/
def hexEncodeChars (bs : Bytes) : List Char :=
  bs.foldr (fun b acc => hexDigitChar ((b / 16) % 16) :: hexDigitChar (b % 16) :: acc) []

/-- Model of `hex::encode`. -/
def hexEncode (bs : Bytes) : String :=
  ⟨hexEncodeChars bs⟩

/-- Value of one hex digit character; `none` on a non-hex character. -/
def hexCharVal (c : Char) : Option Nat :=
  if 48 ≤ c.toNat ∧ c.toNat ≤ 57 then some (c.toNat - 48)
  else if 97 ≤ c.toNat ∧ c.toNat ≤ 102 then some (c.toNat - 87)
  else if 65 ≤ c.toNat ∧ c.toNat ≤ 70 then some (c.toNat - 55)
  else none

/-- Model of `hex::decode` at the character-list level: `none` models the `Err`
the crate returns on odd length or a bad digit (always unwrapped into a
panic at the call sites we embed). -/
def hexDecodeChars : List Char → Option Bytes
  | [] => some []
  | [_] => none
  | c1 :: c2 :: rest =>
    match hexCharVal c1, hexCharVal c2, hexDecodeChars rest with
    | some h, some l, some tl => some ((16 * h + l) :: tl)
    | _, _, _ => none

/-- Model of `hex::decode`. -/
def hexDecode (s : String) : Option Bytes :=
  hexDecodeChars s.data

theorem hexCharVal_hexDigitChar {d : Nat} (h : d < 16) :
    hexCharVal (hexDigitChar d) = some d := by
  interval_cases d <;> decide

theorem hexDecodeChars_hexEncodeChars (bs : Bytes) (h : ∀ b ∈ bs, b < 256) :
    hexDecodeChars (hexEncodeChars bs) = some bs := by
  induction bs with
  | nil => rfl
  | cons b tl ih =>
    have hb : b < 256 := h b (List.mem_cons_self ..)
    have h1 : (b / 16) % 16 < 16 := Nat.mod_lt _ (by norm_num)
    have h2 : b % 16 < 16 := Nat.mod_lt _ (by norm_num)
    have hdiv : b / 16 % 16 = b / 16 := Nat.mod_eq_of_lt (by omega)
    simp only [hexEncodeChars, List.foldr_cons, hexDecodeChars,
      hexCharVal_hexDigitChar h1, hexCharVal_hexDigitChar h2]
    rw [show List.foldr _ [] tl = hexEncodeChars tl from rfl,
      ih (fun x hx => h x (List.mem_cons_of_mem _ hx))]
    have : 16 * (b / 16 % 16) + b % 16 = b := by
      rw [hdiv]; omega
    simp [this]

theorem hexDecode_hexEncode (bs : Bytes) (h : ∀ b ∈ bs, b < 256) :
    hexDecode (hexEncode bs) = some bs :=
  hexDecodeChars_hexEncodeChars bs h

/-! ## Positional base conversion

`toBase` produces the little-endian digits of `n` in base `b` (no
trailing zero digit, `[]` for zero); the first argument is structural
fuel so that every definition reduces by `decide`.  `ofBase` is its
evaluation.  These model `num_bigint`/`bs58` radix conversions. -/

def toBase (b : Nat) : Nat → Nat → List Nat
  | 0, _ => []
  | fuel + 1, n => if n = 0 then [] else n % b :: toBase b fuel (n / b)

def ofBase (b : Nat) (ds : List Nat) : Nat :=
  ds.foldr (fun d acc => d + b * acc) 0

theorem ofBase_toBase {b : Nat} (hb : 2 ≤ b) :
    ∀ fuel n, n ≤ fuel → ofBase b (toBase b fuel n) = n := by
  intro fuel
  induction fuel with
  | zero => intro n hn; interval_cases n; rfl
  | succ fuel ih =>
    intro n hn
    by_cases h0 : n = 0
    · simp [toBase, ofBase, h0]
    · have hlt : n / b < n := Nat.div_lt_self (Nat.pos_of_ne_zero h0) hb
      have : ofBase b (toBase b fuel (n / b)) = n / b := ih _ (by omega)
      simp only [toBase, h0, if_false, ofBase, List.foldr_cons]
      rw [show List.foldr _ 0 (toBase b fuel (n / b)) = ofBase b (toBase b fuel (n / b)) from rfl,
        this]
      exact Nat.mod_add_div n b

theorem toBase_digit_lt {b : Nat} (hb : 2 ≤ b) :
    ∀ fuel n, ∀ d ∈ toBase b fuel n, d < b := by
  intro fuel
  induction fuel with
  | zero => intro n d hd; simp [toBase] at hd
  | succ fuel ih =>
    intro n d hd
    by_cases h0 : n = 0
    · simp [toBase, h0] at hd
    · simp only [toBase, h0, if_false, List.mem_cons] at hd
      rcases hd with h | h
      · subst h; exact Nat.mod_lt _ (by omega)
      · exact ih _ d h

theorem toBase_getLast_ne_zero {b : Nat} (hb : 2 ≤ b) :
    ∀ fuel n, n ≤ fuel → ∀ h : toBase b fuel n ≠ [], (toBase b fuel n).getLast h ≠ 0 := by
  intro fuel
  induction fuel with
  | zero => intro n hn h; interval_cases n; simp [toBase] at h
  | succ fuel ih =>
    intro n hn h
    by_cases h0 : n = 0
    · simp [toBase, h0] at h
    · simp only [toBase, h0, if_false] at h ⊢
      by_cases hq : n / b = 0
      · have htl : toBase b fuel (n / b) = [] := by
          cases fuel <;> simp [toBase, hq]
        have hnb : n % b = n := by
          have hdm := Nat.mod_add_div n b
          rw [hq, Nat.mul_zero] at hdm
          omega
        simp only [List.getLast, htl, hnb]
        exact h0
      · have hqlt : n / b < n := Nat.div_lt_self (Nat.pos_of_ne_zero h0) hb
        have htl : toBase b fuel (n / b) ≠ [] := by
          cases fuel with
          | zero =>
            have hn1 : n = 1 := by omega
            have hdiv : n / b = 0 := by
              rw [hn1]
              exact Nat.div_eq_of_lt (by omega)
            exact absurd hdiv hq
          | succ fuel' => simp [toBase, hq]
        rw [List.getLast_cons htl]
        exact ih _ (by omega) htl

theorem ofBase_pos_of_getLast_ne_zero {b : Nat} (hb : 2 ≤ b) :
    ∀ ds : List Nat, ∀ h : ds ≠ [], ds.getLast h ≠ 0 → 0 < ofBase b ds := by
  intro ds
  induction ds with
  | nil => intro h; exact absurd rfl h
  | cons d tl ih =>
    intro h hlast
    by_cases htl : tl = []
    · subst htl
      simp only [List.getLast_singleton] at hlast
      simp only [ofBase, List.foldr]
      omega
    · have := ih htl (by rwa [List.getLast_cons htl] at hlast)
      simp only [ofBase, List.foldr_cons] at *
      have hb0 : 0 < b := by omega
      nlinarith [this]

theorem toBase_ofBase {b : Nat} (hb : 2 ≤ b) :
    ∀ ds : List Nat, ∀ fuel, (∀ d ∈ ds, d < b) →
      (∀ h : ds ≠ [], ds.getLast h ≠ 0) →
      ofBase b ds ≤ fuel → toBase b fuel (ofBase b ds) = ds := by
  intro ds
  induction ds with
  | nil => intro fuel _ _ _; cases fuel <;> simp [toBase, ofBase]
  | cons d tl ih =>
    intro fuel hlt hlast hfuel
    have hd : d < b := hlt d (List.mem_cons_self ..)
    have hval : ofBase b (d :: tl) = d + b * ofBase b tl := by
      simp [ofBase]
    have hpos : 0 < ofBase b (d :: tl) := by
      by_cases htl : tl = []
      · subst htl
        have : d ≠ 0 := by simpa [List.getLast_singleton] using hlast (by simp)
        simp only [ofBase, List.foldr]; omega
      · have : 0 < ofBase b tl :=
          ofBase_pos_of_getLast_ne_zero hb tl htl
            (by have := hlast (by simp); rwa [List.getLast_cons htl] at this)
        rw [hval]; nlinarith
    obtain ⟨fuel', rfl⟩ : ∃ k, fuel = k + 1 := by
      cases fuel with
      | zero => omega
      | succ k => exact ⟨k, rfl⟩
    have hmod : ofBase b (d :: tl) % b = d := by
      rw [hval, Nat.add_mul_mod_self_left, Nat.mod_eq_of_lt hd]
    have hdivq : ofBase b (d :: tl) / b = ofBase b tl := by
      rw [hval, Nat.add_mul_div_left _ _ (by omega), Nat.div_eq_of_lt hd]; omega
    have hstep : toBase b (fuel' + 1) (ofBase b (d :: tl)) =
        d :: toBase b fuel' (ofBase b tl) := by
      simp only [toBase, Nat.pos_iff_ne_zero.mp hpos, if_false, hmod, hdivq]
    have hfuel' : ofBase b tl ≤ fuel' := by
      have hlt' : ofBase b (d :: tl) / b < ofBase b (d :: tl) :=
        Nat.div_lt_self hpos hb
      rw [hdivq] at hlt'
      omega
    rw [hstep, ih fuel' (fun x hx => hlt x (List.mem_cons_of_mem _ hx))
      (fun htl => by
        have := hlast (by simp)
        rwa [List.getLast_cons htl] at this) hfuel']

end LatticeRs

namespace LatticeRs

/-! ## Leading-element bookkeeping

`bs58` treats leading zero bytes and leading `'1'` characters specially;
these helpers isolate that bookkeeping. -/

def leadLen {α} [DecidableEq α] (a : α) : List α → Nat
  | [] => 0
  | x :: tl => if x = a then leadLen a tl + 1 else 0

def dropLead {α} [DecidableEq α] (a : α) : List α → List α
  | [] => []
  | x :: tl => if x = a then dropLead a tl else x :: tl

theorem leadLen_dropLead_eq {α} [DecidableEq α] (a : α) (l : List α) :
    List.replicate (leadLen a l) a ++ dropLead a l = l := by
  induction l with
  | nil => rfl
  | cons x tl ih =>
    by_cases hx : x = a
    · subst hx; simp [leadLen, dropLead, List.replicate, ih]
    · simp [leadLen, dropLead, hx]

theorem head?_dropLead_ne {α} [DecidableEq α] (a : α) (l : List α) :
    (dropLead a l).head? ≠ some a := by
  induction l with
  | nil => simp [dropLead]
  | cons x tl ih =>
    by_cases hx : x = a
    · subst hx; simpa [dropLead] using ih
    · simp [dropLead, hx]

theorem leadLen_replicate_append {α} [DecidableEq α] (a : α) (k : Nat) (rest : List α) :
    leadLen a (List.replicate k a ++ rest) = k + leadLen a rest := by
  induction k with
  | zero => simp
  | succ k ih => simp [List.replicate, leadLen, ih]; omega

theorem leadLen_eq_zero_of_head {α} [DecidableEq α] (a : α) (rest : List α)
    (h : rest.head? ≠ some a) : leadLen a rest = 0 := by
  cases rest with
  | nil => rfl
  | cons x tl =>
    simp only [List.head?] at h
    have : x ≠ a := fun hx => h (by rw [hx])
    simp [leadLen, this]

theorem ofBase_replicate_zero (b k : Nat) : ofBase b (List.replicate k 0) = 0 := by
  induction k with
  | zero => rfl
  | succ k ih => simp [List.replicate, ofBase, List.foldr] at *; omega

theorem ofBase_append_replicate_zero (b k : Nat) (l : List Nat) :
    ofBase b (l ++ List.replicate k 0) = ofBase b l := by
  induction l with
  | nil => simpa [ofBase] using ofBase_replicate_zero b k
  | cons d tl ih => simp [ofBase, List.foldr] at *; omega

/-! ## Base58 (the `bs58` crate with the Bitcoin alphabet)

`bs58::encode` renders each leading zero byte as `'1'` and the remaining value
in base 58 big-endian; `bs58::decode` counts leading `'1'`s as zero
bytes and evaluates the whole string as a base-58 numeral. -/

def b58Alphabet : List Char :=
  "123456789ABCDEFGHJKLMNPQRSTUVWXYZabcdefghijkmnopqrstuvwxyz".data

def b58DigitChar (d : Nat) : Char := (b58Alphabet.get? d).getD '1'

/-- First index of `c` in a character list, `none` when absent. -/
def charIdx : List Char → Char → Option Nat
  | [], _ => none
  | a :: as, c => if c = a then some 0 else (charIdx as c).map (· + 1)

def b58CharVal (c : Char) : Option Nat := charIdx b58Alphabet c

theorem charIdx_get? {l : List Char} {c : Char} {d : Nat}
    (h : charIdx l c = some d) : l.get? d = some c := by
  induction l generalizing d with
  | nil => simp [charIdx] at h
  | cons a as ih =>
    simp only [charIdx] at h
    split at h
    · next hc =>
      injection h with h0
      subst h0
      simp [List.get?, hc]
    · next hc =>
      obtain ⟨d', hd', rfl⟩ := Option.map_eq_some'.mp h
      simpa [List.get?] using ih hd'

theorem charIdx_lt_length {l : List Char} {c : Char} {d : Nat}
    (h : charIdx l c = some d) : d < l.length := by
  have := charIdx_get? h
  exact List.get?_eq_some.mp this |>.1

theorem b58CharVal_lt {c : Char} {d : Nat} (h : b58CharVal c = some d) : d < 58 :=
  charIdx_lt_length h

theorem b58DigitChar_b58CharVal {c : Char} {d : Nat} (h : b58CharVal c = some d) :
    b58DigitChar d = c := by
  unfold b58DigitChar
  rw [charIdx_get? h]
  rfl

theorem b58CharVal_b58DigitChar : ∀ d < 58, b58CharVal (b58DigitChar d) = some d := by
  decide

theorem b58DigitChar_eq_one_iff : ∀ d < 58, (b58DigitChar d = '1' ↔ d = 0) := by
  decide

theorem b58CharVal_eq_zero {c : Char} (h : b58CharVal c = some 0) : c = '1' :=
  (b58DigitChar_b58CharVal h).symm

def natToBeBytes (n : Nat) : Bytes := (toBase 256 n n).reverse

def b58EncodeChars (bs : Bytes) : List Char :=
  let n := ofBase 256 bs.reverse
  List.replicate (leadLen 0 bs) '1' ++ (toBase 58 n n).reverse.map b58DigitChar

def b58Encode (bs : Bytes) : String := ⟨b58EncodeChars bs⟩

/-- Digit values of every character, `none` as soon as one character is
outside the alphabet (the crate's decode error, unwrapped into a panic
at the repository's call sites). -/
def b58DecodeVals : List Char → Option (List Nat)
  | [] => some []
  | c :: tl =>
    match b58CharVal c, b58DecodeVals tl with
    | some v, some vs => some (v :: vs)
    | _, _ => none

def b58DecodeChars (cs : List Char) : Option Bytes :=
  match b58DecodeVals cs with
  | none => none
  | some vs => some (List.replicate (leadLen '1' cs) 0 ++ natToBeBytes (ofBase 58 vs.reverse))

def b58Decode (s : String) : Option Bytes := b58DecodeChars s.data

end LatticeRs

namespace LatticeRs

theorem mem_of_mem_dropLead {α} [DecidableEq α] {a x : α} {l : List α}
    (h : x ∈ dropLead a l) : x ∈ l := by
  induction l with
  | nil => simp [dropLead] at h
  | cons y tl ih =>
    by_cases hy : y = a
    · subst hy
      simp only [dropLead, if_pos rfl] at h
      exact List.mem_cons_of_mem _ (ih h)
    · simpa [dropLead, hy] using h

theorem b58DecodeVals_append {l1 l2 : List Char} {v1 v2 : List Nat}
    (h1 : b58DecodeVals l1 = some v1) (h2 : b58DecodeVals l2 = some v2) :
    b58DecodeVals (l1 ++ l2) = some (v1 ++ v2) := by
  induction l1 generalizing v1 with
  | nil =>
    simp only [b58DecodeVals] at h1
    injection h1 with h1'
    subst h1'
    simpa using h2
  | cons c tl ih =>
    simp only [b58DecodeVals] at h1
    cases hcv : b58CharVal c with
    | none => rw [hcv] at h1; simp at h1
    | some v =>
      cases htl : b58DecodeVals tl with
      | none => rw [hcv, htl] at h1; simp at h1
      | some vs =>
        rw [hcv, htl] at h1
        injection h1 with h1'
        subst h1'
        simp only [List.cons_append, b58DecodeVals, hcv, List.append_eq, ih htl]

theorem b58DecodeVals_map (l : List Nat) (h : ∀ d ∈ l, d < 58) :
    b58DecodeVals (l.map b58DigitChar) = some l := by
  induction l with
  | nil => rfl
  | cons d tl ih =>
    have hd : d < 58 := h d (List.mem_cons_self ..)
    simp only [List.map_cons, b58DecodeVals, b58CharVal_b58DigitChar d hd,
      ih (fun x hx => h x (List.mem_cons_of_mem _ hx))]

theorem b58CharVal_one : b58CharVal '1' = some 0 := by decide

theorem b58DecodeVals_replicate_one (k : Nat) :
    b58DecodeVals (List.replicate k '1') = some (List.replicate k 0) := by
  induction k with
  | zero => rfl
  | succ k ih => simp only [List.replicate, b58DecodeVals, b58CharVal_one, ih]

/-- The `bs58` round-trip: decoding an encoded byte string restores it. -/
theorem b58DecodeChars_b58EncodeChars (bs : Bytes) (h : ∀ x ∈ bs, x < 256) :
    b58DecodeChars (b58EncodeChars bs) = some bs := by
  have h58 : (2 : Nat) ≤ 58 := by norm_num
  have h256 : (2 : Nat) ≤ 256 := by norm_num
  set z := leadLen 0 bs with hz
  set n := ofBase 256 bs.reverse with hn
  set ds := toBase 58 n n with hds
  have hdigits : ∀ d ∈ ds.reverse, d < 58 := by
    intro d hd
    exact toBase_digit_lt h58 n n d (List.mem_reverse.mp hd)
  have henc : b58EncodeChars bs =
      List.replicate z '1' ++ ds.reverse.map b58DigitChar := rfl
  -- digit values of the encoded string
  have hvals : b58DecodeVals (b58EncodeChars bs) =
      some (List.replicate z 0 ++ ds.reverse) := by
    rw [henc]
    exact b58DecodeVals_append (b58DecodeVals_replicate_one z)
      (b58DecodeVals_map _ hdigits)
  -- the count of leading '1' characters is the count of leading zero bytes
  have hlead : leadLen '1' (b58EncodeChars bs) = z := by
    rw [henc, leadLen_replicate_append]
    by_cases hne : ds = []
    · rw [hne]
      simp [leadLen]
    · have hlast := toBase_getLast_ne_zero h58 n n le_rfl (by rw [← hds]; exact hne)
      have hlast58 : ds.getLast hne < 58 :=
        toBase_digit_lt h58 n n _ (List.getLast_mem hne)
      have hhead : (ds.reverse.map b58DigitChar).head? =
          some (b58DigitChar (ds.getLast hne)) := by
        rw [List.head?_map, List.head?_reverse, List.getLast?_eq_getLast ds hne]
        rfl
      have hne1 : b58DigitChar (ds.getLast hne) ≠ '1' := fun hcontr =>
        hlast ((b58DigitChar_eq_one_iff _ hlast58).mp hcontr)
      have hzero : leadLen '1' (ds.reverse.map b58DigitChar) = 0 := by
        apply leadLen_eq_zero_of_head
        rw [hhead]
        intro hcontr
        injection hcontr with hcontr'
        exact hne1 hcontr'
      rw [hzero]
      omega

  -- the numeric value of the digit string is the value of the bytes
  have hval : ofBase 58 (List.replicate z 0 ++ ds.reverse).reverse = n := by
    rw [List.reverse_append, List.reverse_reverse, List.reverse_replicate,
      ofBase_append_replicate_zero]
    exact ofBase_toBase h58 n n le_rfl
  -- reconstructing the non-zero suffix of the bytes from the value
  have hstrip : List.replicate z 0 ++ dropLead 0 bs = bs := leadLen_dropLead_eq 0 bs
  have hvalstrip : n = ofBase 256 (dropLead 0 bs).reverse := by
    conv_lhs => rw [hn]
    conv_lhs => rw [← hstrip]
    rw [List.reverse_append, List.reverse_replicate, ofBase_append_replicate_zero]
  have hbytes : natToBeBytes n = dropLead 0 bs := by
    rw [natToBeBytes]
    have hmem : ∀ d ∈ (dropLead 0 bs).reverse, d < 256 := fun d hd =>
      h d (mem_of_mem_dropLead (List.mem_reverse.mp hd))
    have hlast : ∀ hne : (dropLead 0 bs).reverse ≠ [],
        ((dropLead 0 bs).reverse).getLast hne ≠ 0 := by
      intro hne hcontr
      have h1 : ((dropLead 0 bs).reverse).getLast? = (dropLead 0 bs).head? :=
        List.getLast?_reverse _
      rw [List.getLast?_eq_getLast _ hne, hcontr] at h1
      exact head?_dropLead_ne 0 bs h1.symm
    have hcanon := toBase_ofBase h256 (dropLead 0 bs).reverse
      (ofBase 256 (dropLead 0 bs).reverse) hmem hlast le_rfl
    rw [hvalstrip, hcanon, List.reverse_reverse]
  rw [b58DecodeChars, hvals]
  simp only [hlead, hval, hbytes, hstrip]

theorem b58Decode_b58Encode (bs : Bytes) (h : ∀ x ∈ bs, x < 256) :
    b58Decode (b58Encode bs) = some bs :=
  b58DecodeChars_b58EncodeChars bs h

end LatticeRs

namespace LatticeRs

theorem b58DecodeVals_lt {cs : List Char} {vs : List Nat}
    (h : b58DecodeVals cs = some vs) : ∀ v ∈ vs, v < 58 := by
  induction cs generalizing vs with
  | nil =>
    simp only [b58DecodeVals] at h
    injection h with h
    subst h
    intro v hv
    simp at hv
  | cons c tl ih =>
    simp only [b58DecodeVals] at h
    cases hcv : b58CharVal c with
    | none => rw [hcv] at h; simp at h
    | some v0 =>
      cases htl : b58DecodeVals tl with
      | none => rw [hcv, htl] at h; simp at h
      | some vs0 =>
        rw [hcv, htl] at h
        injection h with h
        subst h
        intro v hv
        rcases List.mem_cons.mp hv with rfl | hmem
        · exact b58CharVal_lt hcv
        · exact ih htl v hmem

theorem b58DecodeVals_eq_map {cs : List Char} {vs : List Nat}
    (h : b58DecodeVals cs = some vs) : cs = vs.map b58DigitChar := by
  induction cs generalizing vs with
  | nil =>
    simp only [b58DecodeVals] at h
    injection h with h
    subst h
    rfl
  | cons c tl ih =>
    simp only [b58DecodeVals] at h
    cases hcv : b58CharVal c with
    | none => rw [hcv] at h; simp at h
    | some v0 =>
      cases htl : b58DecodeVals tl with
      | none => rw [hcv, htl] at h; simp at h
      | some vs0 =>
        rw [hcv, htl] at h
        injection h with h
        subst h
        simp only [List.map_cons]
        rw [b58DigitChar_b58CharVal hcv, ← ih htl]

theorem leadLen_map_digitChar (vs : List Nat) (hlt : ∀ v ∈ vs, v < 58) :
    leadLen '1' (vs.map b58DigitChar) = leadLen 0 vs := by
  induction vs with
  | nil => rfl
  | cons v tl ih =>
    have hv : v < 58 := hlt v (List.mem_cons_self ..)
    have hiff := b58DigitChar_eq_one_iff v hv
    by_cases hv0 : v = 0
    · subst hv0
      simp [List.map_cons, leadLen, hiff.mpr rfl,
        ih (fun x hx => hlt x (List.mem_cons_of_mem _ hx))]
    · have : b58DigitChar v ≠ '1' := fun hc => hv0 (hiff.mp hc)
      simp only [List.map_cons, leadLen, if_neg this, if_neg hv0]

/-- The `bs58` round-trip, string side: encoding whatever a character string
decoded to restores the string.  This is the closure needed to round-trip
a checksum-valid zltc address through the raw form. -/
theorem b58EncodeChars_b58DecodeChars {cs : List Char} {bytes : Bytes}
    (h : b58DecodeChars cs = some bytes) : b58EncodeChars bytes = cs := by
  have h58 : (2 : Nat) ≤ 58 := by norm_num
  have h256 : (2 : Nat) ≤ 256 := by norm_num
  unfold b58DecodeChars at h
  cases hvs : b58DecodeVals cs with
  | none => rw [hvs] at h; simp at h
  | some vs =>
    rw [hvs] at h
    injection h with h
    subst h
    have hlt : ∀ v ∈ vs, v < 58 := b58DecodeVals_lt hvs
    have hmap : cs = vs.map b58DigitChar := b58DecodeVals_eq_map hvs
    have hleadcs : leadLen '1' cs = leadLen 0 vs := by
      rw [hmap]; exact leadLen_map_digitChar vs hlt
    set z := leadLen 0 vs with hzdef
    set w := dropLead 0 vs with hwdef
    have hsplit : List.replicate z 0 ++ w = vs := leadLen_dropLead_eq 0 vs
    have hwhead : w.head? ≠ some 0 := head?_dropLead_ne 0 vs
    have hwlt : ∀ v ∈ w, v < 58 := fun v hv => hlt v (mem_of_mem_dropLead hv)
    set n := ofBase 58 vs.reverse with hndef
    have hnw : n = ofBase 58 w.reverse := by
      rw [hndef]
      conv_lhs => rw [← hsplit]
      rw [List.reverse_append, List.reverse_replicate, ofBase_append_replicate_zero]
    have hwlast : ∀ hne : w.reverse ≠ [], (w.reverse).getLast hne ≠ 0 := by
      intro hne hcontr
      have h1 : (w.reverse).getLast? = w.head? := List.getLast?_reverse _
      rw [List.getLast?_eq_getLast _ hne, hcontr] at h1
      exact hwhead h1.symm
    have hcanon : toBase 58 n n = w.reverse := by
      rw [hnw]
      exact toBase_ofBase h58 w.reverse (ofBase 58 w.reverse)
        (fun d hd => hwlt d (List.mem_reverse.mp hd)) hwlast le_rfl
    -- the byte string produced by decode, and its two statistics
    rw [hleadcs]
    set m := ofBase 256 (List.replicate z 0 ++ natToBeBytes n).reverse with hmdef
    have hm : m = n := by
      rw [hmdef, List.reverse_append, List.reverse_replicate,
        ofBase_append_replicate_zero, natToBeBytes, List.reverse_reverse]
      exact ofBase_toBase h256 n n le_rfl
    have hleadB : leadLen 0 (List.replicate z 0 ++ natToBeBytes n) = z := by
      rw [leadLen_replicate_append]
      by_cases hne : toBase 256 n n = []
      · simp [natToBeBytes, hne, leadLen]
      · have hlast := toBase_getLast_ne_zero h256 n n le_rfl hne
        have hzero : leadLen 0 (natToBeBytes n) = 0 := by
          apply leadLen_eq_zero_of_head
          rw [natToBeBytes, List.head?_reverse, List.getLast?_eq_getLast _ hne]
          intro hcontr
          injection hcontr with hcontr'
          exact hlast hcontr'
        rw [hzero]
        omega
    have hone : b58DigitChar 0 = '1' := rfl
    rw [show b58EncodeChars (List.replicate z 0 ++ natToBeBytes n) =
        List.replicate (leadLen 0 (List.replicate z 0 ++ natToBeBytes n)) '1' ++
          (toBase 58 m m).reverse.map b58DigitChar from rfl]
    rw [hleadB, hm, hcanon, List.reverse_reverse, hmap]
    conv_rhs => rw [← hsplit]
    rw [List.map_append, List.map_replicate, hone]

theorem b58Encode_b58Decode {s : String} {bytes : Bytes}
    (h : b58Decode s = some bytes) : b58Encode bytes = s := by
  have := b58EncodeChars_b58DecodeChars h
  unfold b58Encode
  rw [this]

end LatticeRs

namespace LatticeRs

/-- Two strings with the same character data are equal. -/
theorem string_ext {s t : String} (h : s.data = t.data) : s = t := by
  cases s
  cases t
  simp only at h
  rw [h]

/-! ## 32-bit word arithmetic for the hash functions -/

def w32 (n : Nat) : Nat := n % 4294967296

def rotr32 (k x : Nat) : Nat := ((x >>> k) ||| (x <<< (32 - k))) % 4294967296

def rotl32 (k x : Nat) : Nat := ((x <<< (k % 32)) ||| (x >>> (32 - k % 32))) % 4294967296

def not32 (x : Nat) : Nat := x ^^^ 4294967295

/-- Big-endian 8-byte rendering of a 64-bit length. -/
def be8 (n : Nat) : Bytes :=
  [n >>> 56 % 256, n >>> 48 % 256, n >>> 40 % 256, n >>> 32 % 256,
   n >>> 24 % 256, n >>> 16 % 256, n >>> 8 % 256, n % 256]

/-- Merkle–Damgård padding shared by SHA-256 and SM3: a 0x80 byte, zeros
to 56 mod 64, then the bit length as 8 big-endian bytes. -/
def mdPad (msg : Bytes) : Bytes :=
  let z := (64 - (msg.length + 9) % 64) % 64
  msg ++ 0x80 :: List.replicate z 0 ++ be8 (8 * msg.length)

def bytesToWords : Bytes → List Nat
  | b0 :: b1 :: b2 :: b3 :: rest => (((b0 * 256 + b1) * 256 + b2) * 256 + b3) :: bytesToWords rest
  | _ => []

def wordsToBytes (ws : List Nat) : Bytes :=
  ws.foldr (fun wd acc => wd >>> 24 % 256 :: wd >>> 16 % 256 :: wd >>> 8 % 256 :: wd % 256 :: acc) []

theorem wordsToBytes_lt (ws : List Nat) : ∀ b ∈ wordsToBytes ws, b < 256 := by
  induction ws with
  | nil => intro b hb; simp [wordsToBytes] at hb
  | cons wd tl ih =>
    intro b hb
    simp only [wordsToBytes, List.foldr_cons, List.mem_cons] at hb
    rcases hb with h | h | h | h | h
    · subst h; exact Nat.mod_lt _ (by norm_num)
    · subst h; exact Nat.mod_lt _ (by norm_num)
    · subst h; exact Nat.mod_lt _ (by norm_num)
    · subst h; exact Nat.mod_lt _ (by norm_num)
    · exact ih b h

def foldBlocks (f : List Nat → Bytes → List Nat) : Nat → Bytes → List Nat → List Nat
  | 0, _, h => h
  | fuel + 1, msg, h =>
    match msg with
    | [] => h
    | _ => foldBlocks f fuel (msg.drop 64) (f h (msg.take 64))

/-! ## SHA-256 (the `sha256` crate used for the address checksum and
`hash_message` on the international curve); the FIPS 180-4 round
constants and initial state are written in decimal -/

def sha256K : List Nat :=
  [1116352408, 1899447441, 3049323471, 3921009573, 961987163, 1508970993,
   2453635748, 2870763221, 3624381080, 310598401, 607225278, 1426881987,
   1925078388, 2162078206, 2614888103, 3248222580, 3835390401, 4022224774,
   264347078, 604807628, 770255983, 1249150122, 1555081692, 1996064986,
   2554220882, 2821834349, 2952996808, 3210313671, 3336571891, 3584528711,
   113926993, 338241895, 666307205, 773529912, 1294757372, 1396182291,
   1695183700, 1986661051, 2177026350, 2456956037, 2730485921, 2820302411,
   3259730800, 3345764771, 3516065817, 3600352804, 4094571909, 275423344,
   430227734, 506948616, 659060556, 883997877, 958139571, 1322822218,
   1537002063, 1747873779, 1955562222, 2024104815, 2227730452, 2361852424,
   2428436474, 2756734187, 3204031479, 3329325298]

def sha256H0 : List Nat :=
  [1779033703, 3144134277, 1013904242, 2773480762, 1359893119,
   2600822924, 528734635, 1541459225]

def sha256Extend : Nat → List Nat → List Nat
  | 0, w => w
  | fuel + 1, w =>
    let i := w.length
    let x15 := w.getD (i - 15) 0
    let x2 := w.getD (i - 2) 0
    let s0 := rotr32 7 x15 ^^^ rotr32 18 x15 ^^^ (x15 >>> 3)
    let s1 := rotr32 17 x2 ^^^ rotr32 19 x2 ^^^ (x2 >>> 10)
    sha256Extend fuel (w ++ [w32 (w.getD (i - 16) 0 + s0 + w.getD (i - 7) 0 + s1)])

def sha256Step (st : List Nat) (kw : Nat × Nat) : List Nat :=
  match st with
  | [a, b, c, d, e, f, g, h] =>
    let s1 := rotr32 6 e ^^^ rotr32 11 e ^^^ rotr32 25 e
    let ch := (e &&& f) ^^^ (not32 e &&& g)
    let t1 := w32 (h + s1 + ch + kw.1 + kw.2)
    let s0 := rotr32 2 a ^^^ rotr32 13 a ^^^ rotr32 22 a
    let maj := (a &&& b) ^^^ (a &&& c) ^^^ (b &&& c)
    let t2 := w32 (s0 + maj)
    [w32 (t1 + t2), a, b, c, w32 (d + t1), e, f, g]
  | other => other

def sha256Compress (h : List Nat) (block : Bytes) : List Nat :=
  let w := sha256Extend 48 (bytesToWords block)
  let st := (sha256K.zip w).foldl sha256Step h
  List.zipWith (fun x y => w32 (x + y)) h st

def sha256 (msg : Bytes) : Bytes :=
  let padded := mdPad msg
  wordsToBytes (foldBlocks sha256Compress padded.length padded sha256H0)

theorem sha256_lt (msg : Bytes) : ∀ b ∈ sha256 msg, b < 256 :=
  wordsToBytes_lt _

/-! ## SM3 (the `libsm` crate, `hash_message` on the national curve) -/

def sm3IV : List Nat :=
  [0x7380166f, 0x4914b2b9, 0x172442d7, 0xda8a0600, 0xa96f30bc, 0x163138aa, 0xe38dee4d, 0xb0fb0e4e]

def sm3P0 (x : Nat) : Nat := x ^^^ rotl32 9 x ^^^ rotl32 17 x

def sm3P1 (x : Nat) : Nat := x ^^^ rotl32 15 x ^^^ rotl32 23 x

def sm3Extend : Nat → List Nat → List Nat
  | 0, w => w
  | fuel + 1, w =>
    let i := w.length
    let t := sm3P1 (w.getD (i - 16) 0 ^^^ w.getD (i - 9) 0 ^^^ rotl32 15 (w.getD (i - 3) 0))
    sm3Extend fuel (w ++ [t ^^^ rotl32 7 (w.getD (i - 13) 0) ^^^ w.getD (i - 6) 0])

def sm3T (j : Nat) : Nat := if j < 16 then 0x79cc4519 else 0x7a879d8a

def sm3FF (j x y z : Nat) : Nat :=
  if j < 16 then x ^^^ y ^^^ z else (x &&& y) ||| (x &&& z) ||| (y &&& z)

def sm3GG (j x y z : Nat) : Nat :=
  if j < 16 then x ^^^ y ^^^ z else (x &&& y) ||| (not32 x &&& z)

def sm3Round (w : List Nat) (st : List Nat) (j : Nat) : List Nat :=
  match st with
  | [a, b, c, d, e, f, g, h] =>
    let ss1 := rotl32 7 (w32 (rotl32 12 a + e + rotl32 (j % 32) (sm3T j)))
    let ss2 := ss1 ^^^ rotl32 12 a
    let wj := w.getD j 0
    let wj' := wj ^^^ w.getD (j + 4) 0
    let tt1 := w32 (sm3FF j a b c + d + ss2 + wj')
    let tt2 := w32 (sm3GG j e f g + h + ss1 + wj)
    [tt1, a, rotl32 9 b, c, sm3P0 tt2, e, rotl32 19 f, g]
  | other => other

def sm3Compress (h : List Nat) (block : Bytes) : List Nat :=
  let w := sm3Extend 52 (bytesToWords block)
  let st := (List.range 64).foldl (sm3Round w) h
  List.zipWith (fun x y => x ^^^ y) h st

def sm3 (msg : Bytes) : Bytes :=
  let padded := mdPad msg
  wordsToBytes (foldBlocks sm3Compress padded.length padded sm3IV)

theorem sm3_lt (msg : Bytes) : ∀ b ∈ sm3 msg, b < 256 :=
  wordsToBytes_lt _

/-! ## `model::enums::Curve` and `crypto::hash::hash_message` -/

inductive Curve where
  | Secp256k1
  | Sm2p256v1
deriving DecidableEq, Repr

/-- Model of `hash_message` (src/crypto/src/hash.rs): the curve-keyed digest,
rendered as a lowercase hex string exactly as the source returns it. -/
def hash_message (message : Bytes) (curve : Curve) : String :=
  match curve with
  | .Secp256k1 => hexEncode (sha256 message)
  | .Sm2p256v1 => hexEncode (sm3 message)

/-- Spec §8 S3 sanity vector: `hash(International, "hello")`. -/
theorem hash_message_hello_secp256k1 :
    hash_message [104, 101, 108, 108, 111] .Secp256k1 =
      "2cf24dba5fb0a30e26e83b2ac5b9e29e1b161e5c1fa7425e73043362938b9824" := by
  decide

/-- Spec §8 S3 sanity vector: `hash(National, "hello")`. -/
theorem hash_message_hello_sm2p256v1 :
    hash_message [104, 101, 108, 108, 111] .Sm2p256v1 =
      "becbbfaae6548b8bf0cfcad5a27183cd1be6093b1cceccc303d9c61d0a645268" := by
  decide

end LatticeRs

namespace LatticeRs

/-! ## Address codec (src/crypto/src/address.rs and src/model/src/common.rs)

The source routes byte strings through hex strings (`digest` returns hex
which is immediately `hex::decode`d); those inverse hops are collapsed
to bytes here.  A Rust `unwrap` panic or slice-bounds panic is `none`. -/

/-- The first four bytes of the double SHA-256 of a payload — the zltc
address checksum (computed identically for both curves). -/
def checksum4 (payload : Bytes) : Bytes := (sha256 (sha256 payload)).take 4

/-- Model of `eth_to_lattice` (src/crypto/src/address.rs:32-40) at the character
level: `d3 = 0x01 ‖ addr ‖ SHA256(SHA256(0x01 ‖ addr))[0..4]`, base58. -/
def eth_to_lattice_chars (addr : Bytes) : List Char :=
  "zltc_".data ++ b58EncodeChars (1 :: addr ++ checksum4 (1 :: addr))

/-- Model of `eth_to_lattice`: raw 20-byte address to the `zltc_` rendering. -/
def eth_to_lattice (addr : Bytes) : String :=
  ⟨eth_to_lattice_chars addr⟩

/-- Model of `lattice_to_eth` (src/crypto/src/address.rs:48-55) at the character
level, returning the raw bytes before hex rendering.  NOTE (faithful to
the source): no length-25 check, no version-byte check and no checksum
check are performed — the function merely strips 5 characters,
base58-decodes and drops the first byte and the last 4 bytes.  `none`
models the panics (`unwrap` of a failed decode, slice out of bounds,
length underflow). -/
def lattice_to_eth_chars (cs : List Char) : Option Bytes :=
  if cs.length < 5 then none
  else
    match b58DecodeChars (cs.drop 5) with
    | none => none
    | some decoded =>
      if decoded.length < 5 then none
      else some ((decoded.drop 1).take (decoded.length - 5))

/-- Model of `lattice_to_eth`: zltc string to the raw-address hex string. -/
def lattice_to_eth (addr : String) : Option String :=
  (lattice_to_eth_chars addr.data).map hexEncode

/-- Model of `Address::to_ethereum_address` (src/model/src/common.rs:63-75): same
slicing when the string starts with `"zltc_"`, with a `0x` prefix on the
output; any other string is returned unchanged.  No validation. -/
def to_ethereum_address (addr : String) : Option String :=
  if addr.data.take 5 = "zltc_".data then
    (lattice_to_eth_chars addr.data).map (fun bs => ⟨'0' :: 'x' :: hexEncodeChars bs⟩)
  else
    some addr

/-- Every byte produced by `b58DecodeChars` is below 256. -/
theorem b58DecodeChars_lt {cs : List Char} {bs : Bytes}
    (h : b58DecodeChars cs = some bs) : ∀ x ∈ bs, x < 256 := by
  unfold b58DecodeChars at h
  cases hvs : b58DecodeVals cs with
  | none => rw [hvs] at h; simp at h
  | some vs =>
    rw [hvs] at h
    injection h with h
    subst h
    intro x hx
    rcases List.mem_append.mp hx with hm | hm
    · have := List.eq_of_mem_replicate hm
      omega
    · exact toBase_digit_lt (by norm_num) _ _ x (List.mem_reverse.mp hm)

theorem length_eth_to_lattice_chars_ge (addr : Bytes) :
    ¬ (eth_to_lattice_chars addr).length < 5 := by
  unfold eth_to_lattice_chars
  rw [List.length_append]
  have h5 : ("zltc_".data).length = 5 := rfl
  omega

/-! Length invariants of the hash cores (needed to know the checksum is
exactly 4 bytes for every input). -/

theorem foldl_length_invariant {β : Type} (f : List Nat → β → List Nat)
    (hf : ∀ st x, (f st x).length = st.length) :
    ∀ (l : List β) (st : List Nat), (l.foldl f st).length = st.length := by
  intro l
  induction l with
  | nil => intro st; rfl
  | cons x tl ih => intro st; rw [List.foldl_cons, ih, hf]

theorem sha256Step_length (st : List Nat) (kw : Nat × Nat) :
    (sha256Step st kw).length = st.length := by
  unfold sha256Step
  split <;> simp

theorem sha256Compress_length (h : List Nat) (block : Bytes) :
    (sha256Compress h block).length = min h.length h.length := by
  unfold sha256Compress
  rw [List.length_zipWith, foldl_length_invariant sha256Step sha256Step_length]

theorem sm3Round_length (w : List Nat) (st : List Nat) (j : Nat) :
    (sm3Round w st j).length = st.length := by
  unfold sm3Round
  split <;> simp

theorem sm3Compress_length (h : List Nat) (block : Bytes) :
    (sm3Compress h block).length = min h.length h.length := by
  unfold sm3Compress
  rw [List.length_zipWith, foldl_length_invariant (sm3Round _) (sm3Round_length _)]

theorem foldBlocks_length {f : List Nat → Bytes → List Nat}
    (hf : ∀ h block, (f h block).length = h.length) :
    ∀ (fuel : Nat) (msg : Bytes) (h : List Nat),
      (foldBlocks f fuel msg h).length = h.length := by
  intro fuel
  induction fuel with
  | zero => intro msg h; rfl
  | succ fuel ih =>
    intro msg h
    cases msg with
    | nil => rfl
    | cons b tl =>
      rw [show foldBlocks f (fuel + 1) (b :: tl) h =
          foldBlocks f fuel ((b :: tl).drop 64) (f h ((b :: tl).take 64)) from rfl, ih, hf]

theorem wordsToBytes_length (ws : List Nat) :
    (wordsToBytes ws).length = 4 * ws.length := by
  induction ws with
  | nil => rfl
  | cons wd tl ih =>
    simp only [wordsToBytes, List.foldr_cons, List.length_cons] at *
    omega

theorem sha256_length (msg : Bytes) : (sha256 msg).length = 32 := by
  unfold sha256
  rw [wordsToBytes_length,
    foldBlocks_length (fun h block => by rw [sha256Compress_length]; omega)]
  rfl

theorem sm3_length (msg : Bytes) : (sm3 msg).length = 32 := by
  unfold sm3
  rw [wordsToBytes_length,
    foldBlocks_length (fun h block => by rw [sm3Compress_length]; omega)]
  rfl

theorem checksum4_length (payload : Bytes) : (checksum4 payload).length = 4 := by
  unfold checksum4
  rw [List.length_take, sha256_length]
  omega

/-- Round-trip, raw side: converting a 20-byte raw address to zltc form
and parsing it back yields the identical bytes. -/
theorem lattice_to_eth_chars_eth_to_lattice (raw : Bytes)
    (hlen : raw.length = 20) (hbytes : ∀ x ∈ raw, x < 256) :
    lattice_to_eth_chars (eth_to_lattice_chars raw) = some raw := by
  have hd3 : ∀ x ∈ 1 :: raw ++ checksum4 (1 :: raw), x < 256 := by
    intro x hx
    rcases List.mem_cons.mp hx with rfl | hx
    · omega
    · rcases List.mem_append.mp hx with hm | hm
      · exact hbytes x hm
      · exact sha256_lt _ x (List.mem_of_mem_take hm)
  have hdec := b58DecodeChars_b58EncodeChars _ hd3
  have hd3len : (1 :: raw ++ checksum4 (1 :: raw)).length = 25 := by
    simp [checksum4_length, hlen]
  unfold lattice_to_eth_chars
  rw [if_neg (length_eth_to_lattice_chars_ge raw)]
  have hdrop : (eth_to_lattice_chars raw).drop 5 =
      b58EncodeChars (1 :: raw ++ checksum4 (1 :: raw)) := by
    unfold eth_to_lattice_chars
    rw [show (5 : Nat) = ("zltc_".data).length from rfl]
    exact List.drop_left _ _
  rw [hdrop, hdec]
  show (if (1 :: raw ++ checksum4 (1 :: raw)).length < 5 then none
      else some (((1 :: raw ++ checksum4 (1 :: raw)).drop 1).take
        ((1 :: raw ++ checksum4 (1 :: raw)).length - 5))) = some raw
  rw [hd3len]
  rw [if_neg (by norm_num : ¬ (25 : Nat) < 5)]
  show some ((raw ++ checksum4 (1 :: raw)).take 20) = some raw
  rw [show (20 : Nat) = raw.length from hlen.symm, List.take_left]

end LatticeRs

namespace LatticeRs

/-- Validity of a zltc address string as the spec defines it (§4.1):
stripping `"zltc_"` leaves a base58 string whose decoded payload is 25
bytes long, starts with the version byte `0x01`, and ends with the four
checksum bytes recomputed from its first 21 bytes. -/
def zltc_valid (z : String) : Prop :=
  ∃ s payload, z.data = "zltc_".data ++ s ∧ b58DecodeChars s = some payload ∧
    payload.length = 25 ∧ payload.head? = some 1 ∧
    payload.drop 21 = checksum4 (payload.take 21)

/-- Round-trip, zltc side: a checksum-valid zltc string parses to raw
bytes whose re-encoding is the identical string. -/
theorem eth_to_lattice_lattice_to_eth (z : String) (h : zltc_valid z) :
    ∃ raw, lattice_to_eth_chars z.data = some raw ∧ (∀ x ∈ raw, x < 256) ∧
      eth_to_lattice raw = z := by
  obtain ⟨s, payload, hz, hdec, hlen, hhead, hchk⟩ := h
  have htail : 1 :: payload.tail = payload := List.cons_head?_tail hhead
  refine ⟨(payload.drop 1).take 20, ?_, ?_, ?_⟩
  · have h5 : ("zltc_".data).length = 5 := rfl
    have hzlen : ¬ z.data.length < 5 := by
      rw [hz, List.length_append]
      omega
    have hzdrop : z.data.drop 5 = s := by
      rw [hz, show (5 : Nat) = ("zltc_".data).length from rfl]
      exact List.drop_left _ _
    unfold lattice_to_eth_chars
    rw [if_neg hzlen, hzdrop, hdec]
    show (if payload.length < 5 then none
        else some ((payload.drop 1).take (payload.length - 5))) = _
    rw [hlen, if_neg (by norm_num : ¬ (25 : Nat) < 5)]
  · intro x hx
    exact b58DecodeChars_lt hdec x (List.mem_of_mem_drop (List.mem_of_mem_take hx))
  · have hdrop1 : payload.drop 1 = payload.tail := List.drop_one payload
    have htake21 : payload.take 21 = 1 :: payload.tail.take 20 := by
      conv_lhs => rw [← htail]
      rfl
    have hdrop21 : payload.drop 21 = payload.tail.drop 20 := by
      conv_lhs => rw [← htail]
      rfl
    have hpayload_eq : payload =
        1 :: ((payload.drop 1).take 20 ++ checksum4 (1 :: (payload.drop 1).take 20)) := by
      conv_lhs => rw [← htail]
      rw [hdrop1]
      congr 1
      rw [show (1 : Nat) :: payload.tail.take 20 = payload.take 21 from htake21.symm,
        ← hchk, hdrop21]
      exact (List.take_append_drop 20 payload.tail).symm
    have henc : b58EncodeChars payload = s := b58EncodeChars_b58DecodeChars hdec
    apply string_ext
    show eth_to_lattice_chars ((payload.drop 1).take 20) = z.data
    rw [hz]
    unfold eth_to_lattice_chars
    congr 1
    rw [← henc]
    exact congrArg b58EncodeChars hpayload_eq.symm

end LatticeRs

namespace LatticeRs

/-- Spec §8 S1 raw address bytes (`5f2be9a02b43f748ee460bf36eed24fafa109920`). -/
def sampleRaw : Bytes :=
  [0x5f, 0x2b, 0xe9, 0xa0, 0x2b, 0x43, 0xf7, 0x48, 0xee, 0x46,
   0x0b, 0xf3, 0x6e, 0xed, 0x24, 0xfa, 0xfa, 0x10, 0x99, 0x20]

/-- Spec §8 S1 sanity vector: the model reproduces the repository's own
test value for `eth_to_lattice`. -/
theorem eth_to_lattice_s1 :
    eth_to_lattice sampleRaw = "zltc_Z1pnS94bP4hQSYLs4aP4UwBP9pH8bEvhi" := by
  decide

/-- C2: for every 20-byte raw address, zltc conversion and back is the
identity on the bytes; for every checksum-valid zltc string, raw
conversion and back is the identity on the string. -/
theorem claim_address_roundtrip :
    (∀ raw : Bytes, raw.length = 20 → (∀ x ∈ raw, x < 256) →
      lattice_to_eth (eth_to_lattice raw) = some (hexEncode raw) ∧
      hexDecode (hexEncode raw) = some raw) ∧
    (∀ z : String, zltc_valid z →
      ∃ hexs raw, lattice_to_eth z = some hexs ∧ hexDecode hexs = some raw ∧
        eth_to_lattice raw = z) := by
  constructor
  · intro raw hlen hb
    constructor
    · show (lattice_to_eth_chars (eth_to_lattice raw).data).map hexEncode =
        some (hexEncode raw)
      rw [show (eth_to_lattice raw).data = eth_to_lattice_chars raw from rfl,
        lattice_to_eth_chars_eth_to_lattice raw hlen hb]
      rfl
    · exact hexDecode_hexEncode raw hb
  · intro z hv
    obtain ⟨raw, hsome, hbound, henc⟩ := eth_to_lattice_lattice_to_eth z hv
    refine ⟨hexEncode raw, raw, ?_, hexDecode_hexEncode raw hbound, henc⟩
    show (lattice_to_eth_chars z.data).map hexEncode = some (hexEncode raw)
    rw [hsome]
    rfl

/-- C2 witness: both round-trip directions at the spec's S1 scenario. -/
theorem claim_address_roundtrip_witness :
    (lattice_to_eth (eth_to_lattice sampleRaw) = some (hexEncode sampleRaw) ∧
      hexDecode (hexEncode sampleRaw) = some sampleRaw) ∧
    (∃ hexs raw,
      lattice_to_eth "zltc_Z1pnS94bP4hQSYLs4aP4UwBP9pH8bEvhi" = some hexs ∧
      hexDecode hexs = some raw ∧
      eth_to_lattice raw = "zltc_Z1pnS94bP4hQSYLs4aP4UwBP9pH8bEvhi") :=
  ⟨claim_address_roundtrip.1 sampleRaw (by decide) (by decide),
   claim_address_roundtrip.2 "zltc_Z1pnS94bP4hQSYLs4aP4UwBP9pH8bEvhi"
     ⟨"Z1pnS94bP4hQSYLs4aP4UwBP9pH8bEvhi".data,
      1 :: sampleRaw ++ [21, 129, 134, 181],
      by decide, by decide, by decide, by decide, by decide⟩⟩

/-- C3 counterexample: a zltc string whose decoded payload has a wrong
checksum (`00000000` in place of `158186b5`) nevertheless parses to the
20 raw bytes — both in `lattice_to_eth` and `Address::to_ethereum_address`
— instead of failing with `InvalidAddress`.  The parsing path contains
no validation at all. -/
theorem claim_checksum_rejection_counterexample :
    (∃ payload, b58Decode "Z1pnS94bP4hQSYLs4aP4UwBP9pH83MgQo" = some payload ∧
      payload.length = 25 ∧ payload.head? = some 1 ∧
      payload.drop 21 ≠ checksum4 (payload.take 21)) ∧
    lattice_to_eth "zltc_Z1pnS94bP4hQSYLs4aP4UwBP9pH83MgQo" =
      some "5f2be9a02b43f748ee460bf36eed24fafa109920" ∧
    to_ethereum_address "zltc_Z1pnS94bP4hQSYLs4aP4UwBP9pH83MgQo" =
      some "0x5f2be9a02b43f748ee460bf36eed24fafa109920" :=
  ⟨⟨1 :: sampleRaw ++ [0, 0, 0, 0], by decide, by decide, by decide, by decide⟩,
   by decide, by decide⟩

/-- C3 amended: the zltc parsing path performs no validation whatever —
for any character string whose base58 decoding yields at least 5 bytes,
`lattice_to_eth` returns `decoded[1 .. len-4]` regardless of the
version byte or the checksum, and there is no `InvalidAddress` error in
this path (base58 failure or fewer than 5 decoded bytes panic instead). -/
theorem claim_checksum_rejection_amended :
    ∀ (s : List Char) (decoded : Bytes), b58DecodeChars s = some decoded →
      5 ≤ decoded.length →
      lattice_to_eth_chars ("zltc_".data ++ s) =
        some ((decoded.drop 1).take (decoded.length - 5)) := by
  intro s decoded hdec hlen
  unfold lattice_to_eth_chars
  have h5 : ("zltc_".data).length = 5 := rfl
  rw [if_neg (by rw [List.length_append]; omega),
    show ("zltc_".data ++ s).drop 5 = s by
      rw [show (5 : Nat) = ("zltc_".data).length from rfl]
      exact List.drop_left _ _,
    hdec]
  show (if decoded.length < 5 then none
      else some ((decoded.drop 1).take (decoded.length - 5))) = _
  rw [if_neg (by omega)]

/-- C3 amended witness: the tampered-checksum payload of the
counterexample flows through the amended statement. -/
theorem claim_checksum_rejection_amended_witness :
    lattice_to_eth_chars ("zltc_".data ++ "Z1pnS94bP4hQSYLs4aP4UwBP9pH83MgQo".data) =
      some (((1 :: sampleRaw ++ [0, 0, 0, 0]).drop 1).take
        ((1 :: sampleRaw ++ [0, 0, 0, 0]).length - 5)) :=
  claim_checksum_rejection_amended "Z1pnS94bP4hQSYLs4aP4UwBP9pH83MgQo".data
    (1 :: sampleRaw ++ [0, 0, 0, 0]) (by decide) (by decide)

end LatticeRs

namespace LatticeRs

/-! ## `model::convert` numeric rendering and the RLP encoder

`number_to_vec`/`option_number_to_vec` (src/model/src/convert.rs:23-40)
call `BigUint::to_bytes_be`, which returns `[0]` — one zero byte, not
the empty string — when the value is zero. -/

/-- Model of `BigUint::to_bytes_be`: minimal big-endian bytes, `[0]` for zero. -/
def biguint_to_bytes_be (n : Nat) : Bytes :=
  if n = 0 then [0] else natToBeBytes n

/-- Model of `number_to_vec` (src/model/src/convert.rs:35-40). -/
def number_to_vec (n : Nat) : Bytes := biguint_to_bytes_be n

/-- Model of `option_number_to_vec` (src/model/src/convert.rs:23-33). -/
def option_number_to_vec (n : Option Nat) : Bytes :=
  match n with
  | some v => biguint_to_bytes_be v
  | none => []

/-- RLP encoding of one byte string (the `rlp` crate's
`RlpStream::append` for byte values). -/
def rlpEncodeBytes (bs : Bytes) : Bytes :=
  match bs with
  | [b] => if b < 0x80 then [b] else [0x81, b]
  | _ =>
    if bs.length ≤ 55 then (0x80 + bs.length) :: bs
    else (0xb7 + (natToBeBytes bs.length).length) :: (natToBeBytes bs.length ++ bs)

/-- RLP list header for a payload of the given length. -/
def rlpListHeader (payloadLen : Nat) : Bytes :=
  if payloadLen ≤ 55 then [0xc0 + payloadLen]
  else (0xf7 + (natToBeBytes payloadLen).length) :: natToBeBytes payloadLen

/-- RLP encoding of a list of byte strings (`RlpStream::append_list`). -/
def rlpEncodeStrList (items : List Bytes) : Bytes :=
  let payload := (items.map rlpEncodeBytes).flatten
  rlpListHeader payload.length ++ payload

/-- Wrap already-encoded items into an RLP list (`begin_list` + `out`). -/
def rlpWrapList (encodedItems : List Bytes) : Bytes :=
  let payload := encodedItems.flatten
  rlpListHeader payload.length ++ payload

/-! ## Transaction model and `Transaction::rlp_encode`
(src/crypto/src/transaction.rs) -/

inductive TxType where
  | Genesis | Create | Send | Receive | Contract | Execute | Update
deriving DecidableEq, Repr

/-- Model of `TxType::to_vec` (src/crypto/src/transaction.rs:58-68). -/
def TxType.to_vec : TxType → Bytes
  | .Genesis => [0x00]
  | .Create => [0x01]
  | .Send => [0x02]
  | .Receive => [0x03]
  | .Contract => [0x04]
  | .Execute => [0x05]
  | .Update => [0x06]

/-- Model of `HexString::clean_hex_string` at the character level: strip one
leading `"0x"` if present. -/
def strip0xChars (cs : List Char) : List Char :=
  if cs.take 2 = ['0', 'x'] then cs.drop 2 else cs

/-- Model of `HexString::new(s).decode()`: strip the optional `0x`, hex-decode;
`none` models the `unwrap` panic on malformed hex. -/
def hexstring_decode (s : String) : Option Bytes :=
  hexDecodeChars (strip0xChars s.data)

/-- Model of `model::constants::ZERO_ZLTC_ADDRESS`. -/
def ZERO_ZLTC_ADDRESS : String := "zltc_QLbz7JHiBTspS962RLKV8GndWFwjA5K66"

/-- Model of `ZERO_HASH_STRING[2..]`: sixty-four `'0'` characters. -/
def zeroHashHexChars : List Char := List.replicate 64 '0'

/-- Model of `Address::to_zltc_address` (src/model/src/common.rs:83-96): convert
only when the string is `0x`-prefixed, otherwise return it unchanged;
`none` models the hex `unwrap` panic. -/
def to_zltc_address (addr : String) : Option String :=
  if addr.data.take 2 = ['0', 'x'] then
    (hexDecodeChars (addr.data.drop 2)).map (fun eth =>
      (⟨"zltc_".data ++ b58EncodeChars (1 :: eth ++ checksum4 (1 :: eth))⟩ : String))
  else some addr

/-- The fields of `Transaction` read by `rlp_encode` (the signature
fields `sign`/`proof_of_work`/`version` are not consumed there). -/
structure Transaction where
  height : Nat
  parent_hash : String
  daemon_hash : String
  payload : Option String
  hub : Option (List String)
  timestamp : Nat
  tx_type : TxType
  owner : String
  linker : Option String
  code : Option String
  amount : Option Nat
  joule : Option Nat

/-- Model of `Transaction::rlp_encode` (src/crypto/src/transaction.rs:173-232).
Returns the encoded bytes together with the code-hash hex string the
pass stores back on the transaction; `none` models any `unwrap` panic
(malformed hex in a field, or a linker-less transaction, whose
`to_zltc_address` detour produces a non-hex string that is then
hex-decoded). -/
def Transaction.rlp_encode (tx : Transaction) (chain_id : Nat) (pow : String)
    (cryptography : Curve) (use_pow : Bool) (is_sign : Bool) :
    Option (Bytes × String) := do
  let parent_hash ← hexstring_decode tx.parent_hash
  let daemon_hash ← hexstring_decode tx.daemon_hash
  let hub_arr ← (tx.hub.getD []).mapM hexstring_decode
  let owner_eth ← to_ethereum_address tx.owner
  let owner_address ← hexstring_decode owner_eth
  let linker_address ← match tx.linker with
    | none => do
      let z ← to_zltc_address ZERO_ZLTC_ADDRESS
      hexstring_decode z
    | some v => do
      let e ← to_ethereum_address v
      hexstring_decode e
  let code_hash_hex : String ← match tx.code with
    | none => pure ⟨zeroHashHexChars⟩
    | some v => do
      let bytes ← hexstring_decode v
      pure (hash_message bytes cryptography)
  let code_hash ← hexstring_decode code_hash_hex
  let payload ← match tx.payload with
    | none => pure ([] : Bytes)
    | some v => hexstring_decode v
  let powItems : List Bytes ← if use_pow then do
      let p ← hexstring_decode pow
      pure [rlpEncodeBytes p]
    else
      pure [rlpEncodeBytes [], rlpEncodeBytes []]
  let items : List Bytes :=
    [rlpEncodeBytes (number_to_vec tx.height),
     rlpEncodeBytes tx.tx_type.to_vec,
     rlpEncodeBytes parent_hash,
     rlpEncodeStrList hub_arr,
     rlpEncodeBytes daemon_hash,
     rlpEncodeBytes code_hash,
     rlpEncodeBytes owner_address,
     rlpEncodeBytes linker_address] ++
    [rlpEncodeBytes (option_number_to_vec tx.amount),
     rlpEncodeBytes (option_number_to_vec tx.joule)] ++
    powItems ++
    [rlpEncodeBytes payload,
     rlpEncodeBytes (number_to_vec tx.timestamp),
     rlpEncodeBytes (number_to_vec chain_id)] ++
    (if is_sign then [rlpEncodeBytes [], rlpEncodeBytes []] else [])
  pure (rlpWrapList items, "0x" ++ code_hash_hex)

end LatticeRs

namespace LatticeRs

/-- The numeric-field rendering the spec describes, modelled from the
spec's words for comparison: big-endian with leading zeros stripped, the
empty byte string when the value is zero. -/
def spec_number_to_vec (n : Nat) : Bytes := natToBeBytes n

/-- A sample all-zero-hash hex string (`0x` plus 64 zeros). -/
def zh64 : String := ⟨'0' :: 'x' :: List.replicate 64 '0'⟩

/-- A transfer-shaped transaction with `height = 0`, `amount = Some(0)`
and `joule = None`. -/
def sampleTxZero : Transaction :=
  { height := 0, parent_hash := zh64, daemon_hash := zh64, payload := none,
    hub := none, timestamp := 0, tx_type := .Send,
    owner := "0x5f2be9a02b43f748ee460bf36eed24fafa109920",
    linker := some "0x5f2be9a02b43f748ee460bf36eed24fafa109920",
    code := none, amount := some 0, joule := none }

/-- C4 counterexample: `number_to_vec 0` is the single byte `0x00`, not
the empty byte string the claim asserts — `BigUint::to_bytes_be`
returns `[0]` for zero — so the two RLP items differ (`0x00` vs `0x80`);
in the full encoding of a transaction with `height = 0` the height slot
(the byte after the two-byte list header) holds `0x00`. -/
theorem claim_rlp_numeric_zero_counterexample :
    number_to_vec 0 = [0] ∧ spec_number_to_vec 0 = [] ∧
    rlpEncodeBytes (number_to_vec 0) = [0x00] ∧
    rlpEncodeBytes (spec_number_to_vec 0) = [0x80] ∧
    (sampleTxZero.rlp_encode 0 "0x00" .Secp256k1 false true).map
      (fun p => p.1.take 3) = some [0xf8, 0x99, 0x00] := by
  refine ⟨by decide, by decide, by decide, by decide, by decide⟩

/-- C4 amended: every numeric field flows through
`number_to_vec`/`option_number_to_vec`; for a nonzero value that is the
minimal big-endian rendering (no leading zero, value-faithful), for the
value zero it is the single byte `0x00` rather than the empty string,
and an absent amount/joule renders as the empty byte string. -/
theorem claim_rlp_numeric_fields_amended :
    (∀ n : Nat, 0 < n →
      number_to_vec n = natToBeBytes n ∧
      (number_to_vec n).head? ≠ some 0 ∧
      ofBase 256 (number_to_vec n).reverse = n ∧
      option_number_to_vec (some n) = number_to_vec n) ∧
    number_to_vec 0 = [0] ∧
    option_number_to_vec none = [] := by
  refine ⟨?_, rfl, rfl⟩
  intro n hn
  have hne : toBase 256 n n ≠ [] := by
    cases n with
    | zero => omega
    | succ m => simp [toBase]
  have hmin : number_to_vec n = natToBeBytes n := by
    unfold number_to_vec biguint_to_bytes_be
    rw [if_neg (by omega)]
  refine ⟨hmin, ?_, ?_, rfl⟩
  · rw [hmin, natToBeBytes, List.head?_reverse, List.getLast?_eq_getLast _ hne]
    intro hc
    injection hc with hc'
    exact toBase_getLast_ne_zero (by norm_num) n n le_rfl hne hc'
  · rw [hmin, natToBeBytes, List.reverse_reverse]
    exact ofBase_toBase (by norm_num) n n le_rfl

/-- C4 amended witness: the characterization at `n = 66051`
(`0x010203`), zero and `None`. -/
theorem claim_rlp_numeric_fields_amended_witness :
    (number_to_vec 66051 = natToBeBytes 66051 ∧
      (number_to_vec 66051).head? ≠ some 0 ∧
      ofBase 256 (number_to_vec 66051).reverse = 66051 ∧
      option_number_to_vec (some 66051) = number_to_vec 66051) ∧
    number_to_vec 0 = [0] ∧
    option_number_to_vec none = [] :=
  ⟨claim_rlp_numeric_fields_amended.1 66051 (by decide),
   claim_rlp_numeric_fields_amended.2.1,
   claim_rlp_numeric_fields_amended.2.2⟩

end LatticeRs

namespace LatticeRs

/-! ## `KeyPair::sign` national-curve layout and `KeyPair::verify`
(src/crypto/src/sign.rs) -/

/-- Model of `BigUint::to_str_radix(16)`: minimal lowercase hex digits, `"0"`
for zero — note: NO zero-padding to a fixed width. -/
def to_str_radix_16 (n : Nat) : List Char :=
  if n = 0 then ['0'] else (toBase 16 n n).reverse.map hexDigitChar

/-- The order of the sm2p256v1 curve. -/
def n_sm2 : Nat :=
  0xFFFFFFFEFFFFFFFFFFFFFFFFFFFFFFFF7203DF6B21C6052B53BBF40939D54123

/-- The national branch of `KeyPair::sign` (src/crypto/src/sign.rs:102-113):
`format!("0x{}{}01{}", sig.get_r().to_str_radix(16),
sig.get_s().to_str_radix(16), hex::encode(digest))`, where `(r, s)` is
what `libsm`'s `sign_raw` returned (each in `[1, n-1]`) and `digest` is
the 32-byte domain-prefixed digest `e = SM3(ZA ‖ message)`. -/
def sm2_sign_format (r s : Nat) (digest : Bytes) : String :=
  ⟨'0' :: 'x' :: (to_str_radix_16 r ++ to_str_radix_16 s ++
    '0' :: '1' :: hexEncodeChars digest)⟩

/-- C1 (code_bug): the national signature hex is NOT fixed-length —
`to_str_radix(16)` strips leading zeros, so a signature whose `r` is
small (here `r = 1`, a legal SM2 `r` value) yields 133 characters where
a full-width `(r, s)` yields 196; `r` does not occupy 32 bytes.  The
repository's own `KeyPair::verify` parses the signature at fixed
offsets `[0..64]`/`[64..128]`, which presumes the padded layout. -/
theorem claim_national_signature_layout_bug :
    0 < 1 ∧ 1 < n_sm2 ∧ 0 < n_sm2 - 1 ∧ n_sm2 - 1 < n_sm2 ∧
    (sm2_sign_format (n_sm2 - 1) (n_sm2 - 1) (List.replicate 32 0)).length = 196 ∧
    (sm2_sign_format 1 (n_sm2 - 1) (List.replicate 32 0)).length = 133 ∧
    (sm2_sign_format 1 (n_sm2 - 1) (List.replicate 32 0)).length ≠ 196 := by
  decide

/-- Model of `KeyPair::get_clean_signature_hex` (src/crypto/src/sign.rs:144-151):
strip an optional `0x`, keep at most the first 128 characters. -/
def get_clean_signature_hex (signature : String) : String :=
  ⟨(strip0xChars signature.data).take 128⟩

/-- Model of `KeyPair::verify` (src/crypto/src/sign.rs:118-141), parameterized on
the external raw verifiers (`secp256k1::verify_ecdsa` over the keypair's
derived public key, and `libsm`'s SM2 `verify`); `none` models the
`unwrap` panics (non-32-byte message, malformed hex, compact-signature
length ≠ 64). -/
def keypair_verify (secpVerify : Bytes → Bytes → Bool)
    (sm2Verify : Bytes → Bytes × Bytes → Bool)
    (curve : Curve) (message : Bytes) (signature : String) : Option Bool :=
  match curve with
  | .Secp256k1 =>
    if message.length ≠ 32 then none
    else
      match hexDecodeChars (get_clean_signature_hex signature).data with
      | none => none
      | some sigBytes =>
        if sigBytes.length ≠ 64 then none
        else some (secpVerify message sigBytes)
  | .Sm2p256v1 =>
    let sigHex := (get_clean_signature_hex signature).data
    if sigHex.length < 64 then none
    else
      match hexDecodeChars (sigHex.take 64), hexDecodeChars (sigHex.drop 64) with
      | some r, some s => some (sm2Verify message (r, s))
      | _, _ => none

/-- C10: verification reads nothing past the first 128 signature hex
characters (after the optional `0x`): two signature strings agreeing
there get the identical verify result, whatever the curve, message and
underlying raw verifiers — the trailing recovery byte and, on the
national curve, the trailing 32-byte digest `e` are never inspected. -/
theorem claim_verify_ignores_signature_tail
    (secpVerify : Bytes → Bytes → Bool) (sm2Verify : Bytes → Bytes × Bytes → Bool)
    (curve : Curve) (message : Bytes) (s1 s2 : String)
    (h : (strip0xChars s1.data).take 128 = (strip0xChars s2.data).take 128) :
    keypair_verify secpVerify sm2Verify curve message s1 =
      keypair_verify secpVerify sm2Verify curve message s2 := by
  have hclean : get_clean_signature_hex s1 = get_clean_signature_hex s2 :=
    congrArg String.mk h
  unfold keypair_verify
  cases curve
  · rw [hclean]
  · rw [hclean]

/-- C10 witness: a national signature followed by the `01` marker and a
32-byte digest verifies identically to the same `r ‖ s` followed by a
different tail. -/
theorem claim_verify_ignores_signature_tail_witness :
    keypair_verify (fun _ _ => true) (fun _ _ => true) .Sm2p256v1
      (List.replicate 32 0)
      ⟨'0' :: 'x' :: (List.replicate 128 'a' ++ '0' :: '1' :: List.replicate 64 '0')⟩ =
    keypair_verify (fun _ _ => true) (fun _ _ => true) .Sm2p256v1
      (List.replicate 32 0)
      ⟨'0' :: 'x' :: (List.replicate 128 'a' ++ ['1', 'b'])⟩ :=
  claim_verify_ignores_signature_tail _ _ _ _ _ _ (by decide)

end LatticeRs

namespace LatticeRs

/-! ## `KeyPair::from_secret_key` (src/crypto/src/sign.rs:54-77) -/

/-- Model of `BigUint::from_bytes_be`. -/
def from_bytes_be (bs : Bytes) : Nat := ofBase 256 bs.reverse

/-- The order of the secp256k1 curve. -/
def n_secp : Nat :=
  0xFFFFFFFFFFFFFFFFFFFFFFFFFFFFFFFEBAAEDCE6AF48A03BBFD25E8CD0364141

structure KeyPair where
  public_key : Bytes
  secret_key : Nat
  curve : Curve
deriving DecidableEq, Repr

/-- Model of `KeyPair::from_secret_key`, parameterized on the two external
public-key derivations (scalar multiplication of the base point).  The
return type is `KeyPair`, not a `Result`: there is no error channel.
`none` models the `unwrap` panics — `SecretKey::from_slice` rejects a
slice that is not exactly 32 bytes or a scalar outside `[1, n-1]`, and
`libsm`'s `pk_from_sk` rejects a scalar that is zero or `≥ n`. -/
def KeyPair.from_secret_key (secp_pk sm2_pk : Nat → Bytes)
    (bytes : Bytes) (curve : Curve) : Option KeyPair :=
  match curve with
  | .Secp256k1 =>
    if bytes.length ≠ 32 then none
    else
      let sk := from_bytes_be bytes
      if sk = 0 ∨ n_secp ≤ sk then none
      else some { public_key := secp_pk sk, secret_key := sk, curve := .Secp256k1 }
  | .Sm2p256v1 =>
    let sk := from_bytes_be bytes
    if sk = 0 ∨ n_sm2 ≤ sk then none
    else some { public_key := sm2_pk sk, secret_key := sk, curve := .Sm2p256v1 }

/-- C7 counterexample: a zero scalar (and a scalar `≥ n`) makes
`from_secret_key` panic (`unwrap` of the library error) — it does not
return an `InvalidSecret` error; indeed its return type `KeyPair`
carries no error channel at all. -/
theorem claim_from_secret_counterexample :
    KeyPair.from_secret_key (fun _ => []) (fun _ => [])
      (List.replicate 32 0) .Sm2p256v1 = none ∧
    KeyPair.from_secret_key (fun _ => []) (fun _ => [])
      (List.replicate 32 0) .Secp256k1 = none ∧
    KeyPair.from_secret_key (fun _ => []) (fun _ => [])
      (List.replicate 32 0xff) .Secp256k1 = none := by
  refine ⟨by decide, by decide, by decide⟩

/-- C7 amended: `from_secret_key` panics (rather than returning an
`InvalidSecret` error) on a zero or out-of-range scalar on either curve
(and on the international curve also on any input that is not exactly
32 bytes); an in-range scalar yields the keypair with the derived
public key and the scalar as secret. -/
theorem claim_from_secret_amended (secp_pk sm2_pk : Nat → Bytes) :
    (∀ bytes : Bytes,
      (from_bytes_be bytes = 0 ∨ n_sm2 ≤ from_bytes_be bytes) →
      KeyPair.from_secret_key secp_pk sm2_pk bytes .Sm2p256v1 = none) ∧
    (∀ bytes : Bytes,
      (bytes.length ≠ 32 ∨ from_bytes_be bytes = 0 ∨ n_secp ≤ from_bytes_be bytes) →
      KeyPair.from_secret_key secp_pk sm2_pk bytes .Secp256k1 = none) ∧
    (∀ bytes : Bytes, 0 < from_bytes_be bytes → from_bytes_be bytes < n_sm2 →
      KeyPair.from_secret_key secp_pk sm2_pk bytes .Sm2p256v1 =
        some ⟨sm2_pk (from_bytes_be bytes), from_bytes_be bytes, .Sm2p256v1⟩) ∧
    (∀ bytes : Bytes, bytes.length = 32 →
      0 < from_bytes_be bytes → from_bytes_be bytes < n_secp →
      KeyPair.from_secret_key secp_pk sm2_pk bytes .Secp256k1 =
        some ⟨secp_pk (from_bytes_be bytes), from_bytes_be bytes, .Secp256k1⟩) := by
  refine ⟨?_, ?_, ?_, ?_⟩
  · intro bytes h
    simp only [KeyPair.from_secret_key]
    rw [if_pos h]
  · intro bytes h
    simp only [KeyPair.from_secret_key]
    rcases h with h | h
    · rw [if_pos h]
    · by_cases hlen : bytes.length ≠ 32
      · rw [if_pos hlen]
      · rw [if_neg hlen, if_pos h]
  · intro bytes h1 h2
    simp only [KeyPair.from_secret_key]
    rw [if_neg (by omega)]
  · intro bytes hlen h1 h2
    simp only [KeyPair.from_secret_key]
    rw [if_neg (by omega), if_neg (by omega)]

end LatticeRs

namespace LatticeRs

/-- C7 amended witness: the four branches at concrete scalars. -/
theorem claim_from_secret_amended_witness :
    (KeyPair.from_secret_key (fun _ => []) (fun _ => [0x04])
      (List.replicate 32 0) .Sm2p256v1 = none) ∧
    (KeyPair.from_secret_key (fun _ => []) (fun _ => [0x04])
      [1, 2, 3] .Secp256k1 = none) ∧
    (KeyPair.from_secret_key (fun _ => []) (fun _ => [0x04])
      (List.replicate 31 0 ++ [7]) .Sm2p256v1 =
      some ⟨[0x04], 7, .Sm2p256v1⟩) ∧
    (KeyPair.from_secret_key (fun _ => []) (fun _ => [0x04])
      (List.replicate 31 0 ++ [7]) .Secp256k1 =
      some ⟨[], 7, .Secp256k1⟩) :=
  ⟨(claim_from_secret_amended _ _).1 _ (by decide),
   (claim_from_secret_amended _ _).2.1 _ (by decide),
   (claim_from_secret_amended _ _).2.2.1 _ (by decide) (by decide),
   (claim_from_secret_amended _ _).2.2.2 _ (by decide) (by decide) (by decide)⟩

/-! ## BIP-32-style child derivation (src/wallet/src/bip32.rs:96-146) -/

inductive BipError where
  | Secp256k1Err
  | Sm2p256v1Err
  | InvalidChildNumber
  | InvalidDerivationPath
  | InvalidExtendedPrivateKey
deriving DecidableEq, Repr

instance {e a : Type} [DecidableEq e] [DecidableEq a] : DecidableEq (Except e a) := fun
  | .ok x, .ok y =>
    if h : x = y then .isTrue (by rw [h])
    else .isFalse (by intro hc; injection hc; contradiction)
  | .ok _, .error _ => .isFalse (by intro hc; cases hc)
  | .error _, .ok _ => .isFalse (by intro hc; cases hc)
  | .error x, .error y =>
    if h : x = y then .isTrue (by rw [h])
    else .isFalse (by intro hc; injection hc; contradiction)

structure ExtendedPrivateKey where
  secret_key : Nat
  chain_code : Bytes
deriving DecidableEq, Repr

/-- Modelled from the spec: `bip44.rs` (the `ChildNumber` type) is not
under src/; spec §3 — a 31-bit index with a hardened flag, rendered as
a big-endian u32 with bit 31 set when hardened. -/
structure ChildNumber where
  index : Nat
  hardened : Bool
deriving DecidableEq, Repr

def ChildNumber.to_bytes (c : ChildNumber) : Bytes :=
  let v := c.index + (if c.hardened then 2147483648 else 0)
  [v >>> 24 % 256, v >>> 16 % 256, v >>> 8 % 256, v % 256]

/-- Model of `ExtendedPrivateKey::secret` (src/wallet/src/bip32.rs:85-94):
the secret key left-padded with zeros to 32 bytes. -/
def ExtendedPrivateKey.secret (xk : ExtendedPrivateKey) : Bytes :=
  List.replicate (32 - (biguint_to_bytes_be xk.secret_key).length) 0 ++
    biguint_to_bytes_be xk.secret_key

/-- The byte string fed to HMAC-SHA512 for one child step — compressed
public key (normal) or `0x00 ‖ secret(32)` (hardened), then the index —
with `none` where the source panics while building it: a normal
international child unwraps `SecretKey::from_slice` on the parent's
minimal big-endian encoding (bip32.rs:103), which requires exactly 32
bytes and a value below the order; a normal national child unwraps
`pk_from_sk` (bip32.rs:109), which requires a nonzero parent below the
order; a hardened child calls `self.secret()` (bip32.rs:90-91), whose
32-byte buffer copy panics when the encoding exceeds 32 bytes. -/
def child_data (secp_compressed sm2_compressed : Nat → Bytes)
    (xk : ExtendedPrivateKey) (c : ChildNumber) (curve : Curve) :
    Option Bytes :=
  if !c.hardened then
    match curve with
    | .Secp256k1 =>
      if (biguint_to_bytes_be xk.secret_key).length ≠ 32 ∨ n_secp ≤ xk.secret_key then
        none
      else some (secp_compressed xk.secret_key ++ c.to_bytes)
    | .Sm2p256v1 =>
      if xk.secret_key = 0 ∨ n_sm2 ≤ xk.secret_key then none
      else some (sm2_compressed xk.secret_key ++ c.to_bytes)
  else
    if 32 < (biguint_to_bytes_be xk.secret_key).length then none
    else some (0 :: xk.secret ++ c.to_bytes)

/-- Model of `ExtendedPrivateKey::child`, parameterized on the external
HMAC-SHA512 (key, data ↦ 64 bytes) and the two compressed-public-key
serializers; `none` is a panic.  Past the data construction, on the
international curve an out-of-range `IL` surfaces as the wrapped
`Error::Secp256k1` from `SecretKey::from_slice` (bip32.rs:129), the
unwrapped `Scalar::from_be_bytes(self.secret())` (bip32.rs:131) panics
for a parent at or above the order, and a zero tweak result surfaces as
the wrapped `Error::Secp256k1` from `add_tweak` (bip32.rs:132); on the
national curve `(IL + parent) mod n` is stored unchecked.
`Error::InvalidChildNumber` is attached only to the HMAC key setup,
which accepts every key. -/
def ExtendedPrivateKey.child (hmac512 : Bytes → Bytes → Bytes)
    (secp_compressed sm2_compressed : Nat → Bytes)
    (xk : ExtendedPrivateKey) (c : ChildNumber) (curve : Curve) :
    Option (Except BipError ExtendedPrivateKey) :=
  match child_data secp_compressed sm2_compressed xk c curve with
  | none => none
  | some data =>
    let I := hmac512 xk.chain_code data
    let IL := from_bytes_be (I.take 32)
    let IR := I.drop 32
    match curve with
    | .Secp256k1 =>
      if IL = 0 ∨ n_secp ≤ IL then some (.error .Secp256k1Err)
      else if n_secp ≤ xk.secret_key then none
      else
        let sk := (IL + xk.secret_key) % n_secp
        if sk = 0 then some (.error .Secp256k1Err)
        else some (.ok ⟨sk, IR⟩)
    | .Sm2p256v1 =>
      some (.ok ⟨(IL + xk.secret_key) % n_sm2, IR⟩)

/-- C6 counterexample: on the national curve, with an in-range parent
secret of 5, an HMAC output with `IL = n` (and one that makes the new
secret zero) is accepted — `child` returns `Ok` without panicking, not
`InvalidChildNumber` as the claim requires. -/
theorem claim_hd_child_counterexample :
    (ExtendedPrivateKey.child
      (fun _ _ => (⟨n_sm2, []⟩ : ExtendedPrivateKey).secret ++ List.replicate 32 7)
      (fun _ => []) (fun _ => [])
      ⟨5, List.replicate 32 0⟩ ⟨0, false⟩ .Sm2p256v1 =
      some (.ok ⟨5, List.replicate 32 7⟩)) ∧
    (ExtendedPrivateKey.child
      (fun _ _ => (⟨n_sm2 - 5, []⟩ : ExtendedPrivateKey).secret ++ List.replicate 32 7)
      (fun _ => []) (fun _ => [])
      ⟨5, List.replicate 32 0⟩ ⟨0, false⟩ .Sm2p256v1 =
      some (.ok ⟨0, List.replicate 32 7⟩)) := by
  refine ⟨by decide, by decide⟩

/-- C6 amended: the child computation is
`(IL, IR) = split(HMAC-SHA512(chain code, data))`, new secret
`(IL + parent) mod n`, new chain code `IR` — but `InvalidChildNumber`
is never returned, and the unwraps panic at reachable inputs: a
hardened child panics in `self.secret()` exactly when the parent's
minimal encoding exceeds 32 bytes; a normal national child panics
exactly when the parent secret is zero or at or above the order; a
normal international child panics exactly when the parent's minimal
encoding is not 32 bytes or the parent is at or above the order.  Past
the data construction the national curve always succeeds (an `IL ≥ n`
is silently reduced and a zero new secret is stored), while the
international curve rejects `IL = 0`, `IL ≥ n` and a zero tweak result
with the wrapped `Secp256k1` error for an in-range parent, panics in
`Scalar::from_be_bytes` for an in-range `IL` and a parent at or above
the order, and otherwise succeeds. -/
theorem claim_hd_child_amended (hmac512 : Bytes → Bytes → Bytes)
    (secp_compressed sm2_compressed : Nat → Bytes)
    (xk : ExtendedPrivateKey) (c : ChildNumber) :
    (∀ curve,
      ExtendedPrivateKey.child hmac512 secp_compressed sm2_compressed xk c curve ≠
        some (.error .InvalidChildNumber)) ∧
    (∀ curve, c.hardened = true →
      (child_data secp_compressed sm2_compressed xk c curve = none ↔
        32 < (biguint_to_bytes_be xk.secret_key).length)) ∧
    (c.hardened = false →
      (ExtendedPrivateKey.child hmac512 secp_compressed sm2_compressed xk c .Sm2p256v1 =
          none ↔ (xk.secret_key = 0 ∨ n_sm2 ≤ xk.secret_key))) ∧
    (c.hardened = false →
      (ExtendedPrivateKey.child hmac512 secp_compressed sm2_compressed xk c .Secp256k1 =
          none ↔ ((biguint_to_bytes_be xk.secret_key).length ≠ 32 ∨
            n_secp ≤ xk.secret_key))) ∧
    (∀ data, child_data secp_compressed sm2_compressed xk c .Sm2p256v1 = some data →
      ∀ I, I = hmac512 xk.chain_code data →
      ExtendedPrivateKey.child hmac512 secp_compressed sm2_compressed xk c .Sm2p256v1 =
        some (.ok ⟨(from_bytes_be (I.take 32) + xk.secret_key) % n_sm2, I.drop 32⟩)) ∧
    (∀ data, child_data secp_compressed sm2_compressed xk c .Secp256k1 = some data →
      ∀ I, I = hmac512 xk.chain_code data →
      (xk.secret_key < n_secp →
        (ExtendedPrivateKey.child hmac512 secp_compressed sm2_compressed xk c .Secp256k1 =
            some (.error .Secp256k1Err) ↔
          (from_bytes_be (I.take 32) = 0 ∨ n_secp ≤ from_bytes_be (I.take 32) ∨
            (from_bytes_be (I.take 32) + xk.secret_key) % n_secp = 0))) ∧
      (0 < from_bytes_be (I.take 32) → from_bytes_be (I.take 32) < n_secp →
        n_secp ≤ xk.secret_key →
        ExtendedPrivateKey.child hmac512 secp_compressed sm2_compressed xk c .Secp256k1 =
          none) ∧
      (0 < from_bytes_be (I.take 32) → from_bytes_be (I.take 32) < n_secp →
        xk.secret_key < n_secp →
        (from_bytes_be (I.take 32) + xk.secret_key) % n_secp ≠ 0 →
        ExtendedPrivateKey.child hmac512 secp_compressed sm2_compressed xk c .Secp256k1 =
          some (.ok ⟨(from_bytes_be (I.take 32) + xk.secret_key) % n_secp,
            I.drop 32⟩))) := by
  refine ⟨?_, ?_, ?_, ?_, ?_, ?_⟩
  · intro curve
    cases hd : child_data secp_compressed sm2_compressed xk c curve with
    | none =>
      intro hc
      simp only [ExtendedPrivateKey.child, hd] at hc
      exact Option.noConfusion hc
    | some data =>
      cases curve <;> intro hc <;>
        simp only [ExtendedPrivateKey.child, hd] at hc
      split at hc
      · exact absurd hc (by decide)
      · split at hc
        · cases hc
        · split at hc
          · exact absurd hc (by decide)
          · injection hc with hc'
            exact Except.noConfusion hc'
      · injection hc with hc'
        exact Except.noConfusion hc'
  · intro curve hh
    cases curve <;> simp only [child_data, hh, Bool.not_true, Bool.false_eq_true,
        if_false] <;>
      rcases Nat.lt_or_ge 32 (biguint_to_bytes_be xk.secret_key).length with hl | hl
    · rw [if_pos hl]
      exact Iff.intro (fun _ => hl) (fun _ => rfl)
    · rw [if_neg (by omega)]
      constructor
      · intro hc
        exact Option.noConfusion hc
      · intro hc
        exact absurd hc (by omega)
    · rw [if_pos hl]
      exact Iff.intro (fun _ => hl) (fun _ => rfl)
    · rw [if_neg (by omega)]
      constructor
      · intro hc
        exact Option.noConfusion hc
      · intro hc
        exact absurd hc (by omega)
  · intro hnf
    constructor
    · intro hc
      by_cases hp : xk.secret_key = 0 ∨ n_sm2 ≤ xk.secret_key
      · exact hp
      · exfalso
        have hd : child_data secp_compressed sm2_compressed xk c .Sm2p256v1 =
            some (sm2_compressed xk.secret_key ++ c.to_bytes) := by
          simp only [child_data, hnf, Bool.not_false, if_true]
          rw [if_neg hp]
        simp only [ExtendedPrivateKey.child, hd] at hc
        exact Option.noConfusion hc
    · intro hp
      have hd : child_data secp_compressed sm2_compressed xk c .Sm2p256v1 = none := by
        simp only [child_data, hnf, Bool.not_false, if_true]
        rw [if_pos hp]
      simp only [ExtendedPrivateKey.child, hd]
  · intro hnf
    constructor
    · intro hc
      by_cases hp : (biguint_to_bytes_be xk.secret_key).length ≠ 32 ∨
          n_secp ≤ xk.secret_key
      · exact hp
      · exfalso
        have hd : child_data secp_compressed sm2_compressed xk c .Secp256k1 =
            some (secp_compressed xk.secret_key ++ c.to_bytes) := by
          simp only [child_data, hnf, Bool.not_false, if_true]
          rw [if_neg hp]
        simp only [ExtendedPrivateKey.child, hd] at hc
        split at hc
        · cases hc
        · rw [if_neg (by omega)] at hc
          split at hc <;> cases hc
    · intro hp
      have hd : child_data secp_compressed sm2_compressed xk c .Secp256k1 = none := by
        simp only [child_data, hnf, Bool.not_false, if_true]
        rw [if_pos hp]
      simp only [ExtendedPrivateKey.child, hd]
  · intro data hd I hI
    subst hI
    simp only [ExtendedPrivateKey.child, hd]
  · intro data hd I hI
    subst hI
    refine ⟨?_, ?_, ?_⟩
    · intro hpar
      simp only [ExtendedPrivateKey.child, hd]
      constructor
      · intro hc
        by_cases h1 : from_bytes_be ((hmac512 xk.chain_code data).take 32) = 0 ∨
            n_secp ≤ from_bytes_be ((hmac512 xk.chain_code data).take 32)
        · omega
        · rw [if_neg h1, if_neg (by omega)] at hc
          by_cases h2 : (from_bytes_be ((hmac512 xk.chain_code data).take 32) +
              xk.secret_key) % n_secp = 0
          · omega
          · rw [if_neg h2] at hc
            injection hc with hc'
            exact Except.noConfusion hc'
      · intro h
        rcases h with h | h | h
        · rw [if_pos (Or.inl h)]
        · rw [if_pos (Or.inr h)]
        · by_cases h1 : from_bytes_be ((hmac512 xk.chain_code data).take 32) = 0 ∨
              n_secp ≤ from_bytes_be ((hmac512 xk.chain_code data).take 32)
          · rw [if_pos h1]
          · rw [if_neg h1, if_neg (by omega), if_pos h]
    · intro h0 h1 h2
      simp only [ExtendedPrivateKey.child, hd]
      rw [if_neg (by omega), if_pos h2]
    · intro h0 h1 hpar hm
      simp only [ExtendedPrivateKey.child, hd]
      rw [if_neg (by omega), if_neg (by omega), if_neg hm]

/-- C6 amended witness: the characterization at concrete HMAC outputs,
keys and indices — the never-InvalidChildNumber clause and the
hardened national success at parent 5, and the normal national panic
at the zero parent. -/
theorem claim_hd_child_amended_witness :
    (∀ curve,
      ExtendedPrivateKey.child (fun _ _ => List.replicate 64 1)
        (fun _ => [2]) (fun _ => [3]) ⟨5, [9]⟩ ⟨1, true⟩ curve ≠
        some (.error .InvalidChildNumber)) ∧
    ExtendedPrivateKey.child (fun _ _ => List.replicate 64 1)
      (fun _ => [2]) (fun _ => [3]) ⟨5, [9]⟩ ⟨1, true⟩ .Sm2p256v1 =
      some (.ok ⟨(from_bytes_be (List.replicate 32 1) + 5) % n_sm2,
        List.replicate 32 1⟩) ∧
    ExtendedPrivateKey.child (fun _ _ => List.replicate 64 1)
      (fun _ => [2]) (fun _ => [3]) ⟨0, [9]⟩ ⟨1, false⟩ .Sm2p256v1 = none :=
  ⟨(claim_hd_child_amended _ _ _ _ _).1,
   (claim_hd_child_amended _ _ _ _ _).2.2.2.2.1
     (0 :: (⟨5, [9]⟩ : ExtendedPrivateKey).secret ++
       ChildNumber.to_bytes ⟨1, true⟩)
     (by decide) (List.replicate 64 1) rfl,
   ((claim_hd_child_amended (fun _ _ => List.replicate 64 1) (fun _ => [2])
      (fun _ => [3]) ⟨0, [9]⟩ ⟨1, false⟩).2.2.1 rfl).2 (Or.inl rfl)⟩

end LatticeRs

namespace LatticeRs

/-! ## Keystore (src/wallet/src/file_key.rs)

scrypt and the AES-128-CTR keystream are external crates, taken as
function parameters (`scrypt_key`: password and salt bytes to the
32-byte derived key the source stores as 64 hex chars and slices in
half; `keystream`: AES key and IV to the CTR keystream whose XOR is
`apply_keystream`).  The random salt and IV drawn in `gen_cipher` are
explicit arguments.  `uuid` and `address` of `FileKey` are not read by
`decrypt` and are elided. -/

structure Cipher where
  iv : Bytes
  salt : Bytes
  cipher_text : Bytes
  mac : String
deriving DecidableEq, Repr

structure FileKey where
  cipher : Cipher
  is_gm : Bool
deriving DecidableEq, Repr

/-- Model of `apply_keystream` of AES-128-CTR from offset 0: XOR the data with
the keystream for (key, iv). -/
def aes_ctr (keystream : Bytes → Bytes → Bytes) (key iv data : Bytes) : Bytes :=
  data.zipWith Nat.xor (keystream key iv)

/-- Model of `compute_mac` (src/wallet/src/file_key.rs:185-190):
`hash(curve, mac_key ‖ cipher_text)`. -/
def compute_mac (key : Bytes) (cipher_bytes : Bytes) (curve : Curve) : String :=
  hash_message (key ++ cipher_bytes) curve

/-- Model of `gen_cipher` (src/wallet/src/file_key.rs:131-158). -/
def gen_cipher (scrypt_key keystream : Bytes → Bytes → Bytes)
    (salt iv secret_key password : Bytes) (curve : Curve) : Cipher :=
  let key := scrypt_key password salt
  let aes_key := key.take 16
  let hash_key := (key.drop 16).take 16
  let cipher_text := aes_ctr keystream aes_key iv secret_key
  { iv := iv, salt := salt, cipher_text := cipher_text,
    mac := compute_mac hash_key cipher_text curve }

/-- Model of `FileKey::from_secret_key` (src/wallet/src/file_key.rs:87-95),
restricted to the fields `decrypt` reads. -/
def FileKey.from_secret_key (scrypt_key keystream : Bytes → Bytes → Bytes)
    (salt iv secret_key password : Bytes) (curve : Curve) : FileKey :=
  { cipher := gen_cipher scrypt_key keystream salt iv secret_key password curve,
    is_gm := match curve with | .Sm2p256v1 => true | .Secp256k1 => false }

/-- Model of `FileKey::decrypt` (src/wallet/src/file_key.rs:104-120): rederive
the key from the stored salt, recompute the MAC, fail with the
wrong-passphrase error on mismatch, otherwise decrypt and rebuild the
keypair.  The outer `Option` models the `unwrap` panic inside
`KeyPair::from_secret_key` on an out-of-range decrypted scalar. -/
def FileKey.decrypt (scrypt_key keystream : Bytes → Bytes → Bytes)
    (secp_pk sm2_pk : Nat → Bytes) (fk : FileKey) (password : Bytes) :
    Except String (Option KeyPair) :=
  let key := scrypt_key password fk.cipher.salt
  let aes_key := key.take 16
  let hash_key := (key.drop 16).take 16
  let curve := if fk.is_gm then Curve.Sm2p256v1 else Curve.Secp256k1
  let actual_mac := compute_mac hash_key fk.cipher.cipher_text curve
  if actual_mac ≠ fk.cipher.mac then .error "根据密码无法解析出私钥，请检查密码"
  else
    let secret_bytes := aes_ctr keystream aes_key fk.cipher.iv fk.cipher.cipher_text
    .ok (KeyPair.from_secret_key secp_pk sm2_pk secret_bytes curve)

theorem zipWith_xor_involutive (d ks : Bytes) (h : d.length ≤ ks.length) :
    (d.zipWith Nat.xor ks).zipWith Nat.xor ks = d := by
  induction d generalizing ks with
  | nil => simp
  | cons x tl ih =>
    cases ks with
    | nil => simp at h
    | cons k ktl =>
      simp only [List.zipWith_cons_cons, List.length_cons] at *
      have hx : Nat.xor (Nat.xor x k) k = x := by
        change (x ^^^ k) ^^^ k = x
        rw [Nat.xor_assoc, Nat.xor_self, Nat.xor_zero]
      rw [hx, ih ktl (by omega)]

/-- C5: decrypting the keystore produced by encrypting a secret key
with the same passphrase yields a keypair whose secret is the original
scalar; decrypting with any passphrase whose derived MAC differs from
the stored MAC fails with the wrong-passphrase error.  Quantified over
the external scrypt and AES-CTR keystream functions; the keystream must
cover the secret (AES-CTR streams are unbounded) and the scalar must be
one the final `KeyPair::from_secret_key` accepts. -/
theorem claim_keystore_roundtrip (scrypt_key keystream : Bytes → Bytes → Bytes)
    (secp_pk sm2_pk : Nat → Bytes) :
    (∀ (salt iv sk pw : Bytes) (curve : Curve),
      sk.length ≤ (keystream ((scrypt_key pw salt).take 16) iv).length →
      (curve = .Secp256k1 → sk.length = 32 ∧
        0 < from_bytes_be sk ∧ from_bytes_be sk < n_secp) →
      (curve = .Sm2p256v1 → 0 < from_bytes_be sk ∧ from_bytes_be sk < n_sm2) →
      ∃ kp : KeyPair,
        FileKey.decrypt scrypt_key keystream secp_pk sm2_pk
          (FileKey.from_secret_key scrypt_key keystream salt iv sk pw curve) pw =
          .ok (some kp) ∧
        kp.secret_key = from_bytes_be sk) ∧
    (∀ (fk : FileKey) (pw : Bytes),
      compute_mac (((scrypt_key pw fk.cipher.salt).drop 16).take 16)
          fk.cipher.cipher_text
          (if fk.is_gm then Curve.Sm2p256v1 else Curve.Secp256k1) ≠ fk.cipher.mac →
      FileKey.decrypt scrypt_key keystream secp_pk sm2_pk fk pw =
        .error "根据密码无法解析出私钥，请检查密码") := by
  constructor
  · intro salt iv sk pw curve hks hsecp hsm2
    have hcurve : (if (FileKey.from_secret_key scrypt_key keystream salt iv sk pw curve).is_gm
        then Curve.Sm2p256v1 else Curve.Secp256k1) = curve := by
      cases curve <;> rfl
    have hplain : aes_ctr keystream ((scrypt_key pw salt).take 16) iv
        (aes_ctr keystream ((scrypt_key pw salt).take 16) iv sk) = sk :=
      zipWith_xor_involutive _ _ hks
    unfold FileKey.decrypt
    rw [hcurve]
    simp only [FileKey.from_secret_key, gen_cipher]
    rw [if_neg (by intro hc; exact hc rfl)]
    rw [show aes_ctr keystream ((scrypt_key pw salt).take 16) iv
        (aes_ctr keystream ((scrypt_key pw salt).take 16) iv sk) = sk from hplain]
    cases curve with
    | Secp256k1 =>
      obtain ⟨hlen, hpos, hlt⟩ := hsecp rfl
      refine ⟨⟨secp_pk (from_bytes_be sk), from_bytes_be sk, .Secp256k1⟩, ?_, rfl⟩
      simp only [KeyPair.from_secret_key]
      rw [if_neg (by omega), if_neg (by omega)]
    | Sm2p256v1 =>
      obtain ⟨hpos, hlt⟩ := hsm2 rfl
      refine ⟨⟨sm2_pk (from_bytes_be sk), from_bytes_be sk, .Sm2p256v1⟩, ?_, rfl⟩
      simp only [KeyPair.from_secret_key]
      rw [if_neg (by omega)]
  · intro fk pw hmac
    unfold FileKey.decrypt
    rw [if_pos hmac]

end LatticeRs

namespace LatticeRs

/-- A concrete stand-in for scrypt in witnesses: derives different keys
for different passwords. -/
def wScrypt : Bytes → Bytes → Bytes :=
  fun pw _ => if pw = [1] then List.replicate 32 2 else List.replicate 32 3

/-- A concrete stand-in for the AES-CTR keystream in witnesses. -/
def wKeystream : Bytes → Bytes → Bytes := fun _ _ => List.replicate 64 7

/-- A concrete stand-in for public-key derivation in witnesses. -/
def wPk : Nat → Bytes := fun _ => [4]

/-- C5 witness: a concrete secret round-trips under the right
passphrase and is rejected with the wrong-passphrase error under a
passphrase whose derived MAC differs. -/
theorem claim_keystore_roundtrip_witness :
    (∃ kp : KeyPair,
      FileKey.decrypt wScrypt wKeystream wPk wPk
        (FileKey.from_secret_key wScrypt wKeystream [0] [0]
          (List.replicate 31 0 ++ [9]) [1] .Sm2p256v1) [1] =
        .ok (some kp) ∧
      kp.secret_key = from_bytes_be (List.replicate 31 0 ++ [9])) ∧
    FileKey.decrypt wScrypt wKeystream wPk wPk
      (FileKey.from_secret_key wScrypt wKeystream [0] [0]
        (List.replicate 31 0 ++ [9]) [1] .Sm2p256v1) [2] =
      .error "根据密码无法解析出私钥，请检查密码" :=
  ⟨(claim_keystore_roundtrip wScrypt wKeystream wPk wPk).1 [0] [0]
      (List.replicate 31 0 ++ [9]) [1] .Sm2p256v1 (by decide) (by decide) (by decide),
   (claim_keystore_roundtrip wScrypt wKeystream wPk wPk).2 _ [2] (by decide)⟩

end LatticeRs

namespace LatticeRs

/-! ## Per-account tip cache and `LatticeClient::transfer`
(src/lattice/src/account_cache.rs, src/lattice/src/lattice.rs:188-221)

`LatestBlock`'s struct definition is not under src/ (model/src/block.rs
is a stale fragment); its fields follow spec §3 and the use sites
(`block.height`, `block.hash`, `block.daemon_hash`).  The moka cache and
the daemon-expiry map are association lists; `SystemTime` is a `Nat`;
the RPC responses a `get` may consult are explicit arguments. -/

structure LatestBlock where
  height : Nat
  hash : String
  daemon_hash : String
deriving DecidableEq, Repr

structure CacheState where
  tip : List (String × LatestBlock)
  daemon_expire : List (Nat × Nat)
deriving DecidableEq, Repr

def assocGet {α β : Type} [DecidableEq α] : List (α × β) → α → Option β
  | [], _ => none
  | (k, v) :: tl, key => if key = k then some v else assocGet tl key

def assocPut {α β : Type} [DecidableEq α] : List (α × β) → α → β → List (α × β)
  | [], key, v => [(key, v)]
  | (k, w) :: tl, key, v =>
    if key = k then (k, v) :: tl else (k, w) :: assocPut tl key v

theorem assocGet_assocPut_same {α β : Type} [DecidableEq α]
    (l : List (α × β)) (key : α) (v : β) :
    assocGet (assocPut l key v) key = some v := by
  induction l with
  | nil => simp [assocPut, assocGet]
  | cons p tl ih =>
    obtain ⟨k, w⟩ := p
    by_cases hk : key = k
    · simp [assocPut, assocGet, hk]
    · simp [assocPut, assocGet, hk, ih]

/-- Model of `format!("{}_{}", chain_id, account_address)`. -/
def cache_key (chain_id : Nat) (addr : String) : String :=
  toString chain_id ++ "_" ++ addr

/-- Model of `DefaultAccountCache::set` (src/lattice/src/account_cache.rs:76-88):
insert the block under the account key; insert a daemon-expiry deadline
for the chain only when none exists. -/
def account_cache_set (enable : Bool) (dur now : Nat) (st : CacheState)
    (chain_id : Nat) (addr : String) (block : LatestBlock) : CacheState :=
  if !enable then st
  else
    { tip := assocPut st.tip (cache_key chain_id addr) block,
      daemon_expire :=
        if (assocGet st.daemon_expire chain_id).isSome then st.daemon_expire
        else assocPut st.daemon_expire chain_id (now + dur) }

/-- Model of `DefaultAccountCache::get` (src/lattice/src/account_cache.rs:90-125):
fall back to the RPC block on a miss (without inserting it), refresh the
daemon hash when the chain's deadline has passed. -/
def account_cache_get (enable : Bool) (dur : Nat) (st : CacheState)
    (chain_id : Nat) (addr : String)
    (rpc_block : LatestBlock) (rpc_daemon_hash : String) (now : Nat) :
    LatestBlock × CacheState :=
  if !enable then (rpc_block, st)
  else
    let cached := (assocGet st.tip (cache_key chain_id addr)).getD rpc_block
    match assocGet st.daemon_expire chain_id with
    | some t =>
      if now > t then
        ({ cached with daemon_hash := rpc_daemon_hash },
         { st with daemon_expire := assocPut st.daemon_expire chain_id (now + dur) })
      else (cached, st)
    | none =>
      (cached, { st with daemon_expire := assocPut st.daemon_expire chain_id (now + dur) })

theorem account_cache_get_tip_eq (enable : Bool) (dur : Nat) (st : CacheState)
    (chain_id : Nat) (addr : String) (rpc_block : LatestBlock)
    (rpc_daemon_hash : String) (now : Nat) :
    (account_cache_get enable dur st chain_id addr rpc_block rpc_daemon_hash now).2.tip =
      st.tip := by
  unfold account_cache_get
  split
  · rfl
  · split
    · split <;> rfl
    · rfl

/-- Model of `LatticeClient::transfer` (src/lattice/src/lattice.rs:188-221),
reduced to its cache-observable behaviour under the per-account lock:
obtain the tip from the cache, submit (result supplied), and on success
store the tip advanced to `height+1` with the returned hash; on error
propagate without touching the cache.  `LatticeClient::new` constructs
`DefaultAccountCache::new(true, …)`, so the cache is enabled. -/
def lattice_transfer (enable : Bool) (dur : Nat) (st : CacheState)
    (chain_id : Nat) (addr : String)
    (rpc_block : LatestBlock) (rpc_daemon_hash : String) (now : Nat)
    (send_result : Except String String) :
    Except String String × CacheState :=
  let r := account_cache_get enable dur st chain_id addr rpc_block rpc_daemon_hash now
  match send_result with
  | .ok hash =>
    (.ok hash, account_cache_set enable dur now r.2 chain_id addr
      { r.1 with hash := hash, height := r.1.height + 1 })
  | .error e => (.error e, r.2)

/-- C8: on a successful submission the per-account cached tip becomes
`{height+1, returned hash, obtained daemon_hash}` — the daemon hash is
not advanced by this update — and the returned hash is propagated; on a
failed submission the error is propagated and the tip map is left
exactly as it was (the get step never writes tips). -/
theorem claim_transfer_tip_cache (dur : Nat) (st : CacheState) (chain_id : Nat)
    (addr : String) (rpc_block : LatestBlock) (rpc_daemon_hash : String) (now : Nat) :
    (∀ hash : String,
      (lattice_transfer true dur st chain_id addr rpc_block rpc_daemon_hash now
          (.ok hash)).1 = .ok hash ∧
      assocGet (lattice_transfer true dur st chain_id addr rpc_block rpc_daemon_hash now
          (.ok hash)).2.tip (cache_key chain_id addr) =
        some { height := (account_cache_get true dur st chain_id addr rpc_block
                  rpc_daemon_hash now).1.height + 1,
               hash := hash,
               daemon_hash := (account_cache_get true dur st chain_id addr rpc_block
                  rpc_daemon_hash now).1.daemon_hash }) ∧
    (∀ e : String,
      (lattice_transfer true dur st chain_id addr rpc_block rpc_daemon_hash now
          (.error e)).1 = .error e ∧
      (lattice_transfer true dur st chain_id addr rpc_block rpc_daemon_hash now
          (.error e)).2.tip = st.tip) := by
  constructor
  · intro hash
    refine ⟨rfl, ?_⟩
    show assocGet (account_cache_set true dur now _ chain_id addr _).tip _ = _
    unfold account_cache_set
    simp only [Bool.not_true, Bool.false_eq_true, if_false]
    exact assocGet_assocPut_same _ _ _
  · intro e
    exact ⟨rfl, account_cache_get_tip_eq true dur st chain_id addr
      rpc_block rpc_daemon_hash now⟩

end LatticeRs

namespace LatticeRs

/-! ## ABI argument conversion (src/abi/src/encode.rs)

The four type-string regexes use the character class `[1-9]`, which
excludes the digit `0`; `parse_bytes` falls back to size 0 (dynamic)
when the digit part is empty; the fixed-size branch of
`convert_argument` length-checks the decoded hex and then builds
`B256::from_slice(bytes)`, which panics unless the slice is exactly 32
bytes. -/

def isDigit19 (c : Char) : Bool := '1' ≤ c && c ≤ '9'

def isLowerAlpha (c : Char) : Bool := 'a' ≤ c && c ≤ 'z'

/-- Model of `SOL_TY_BYTES_REGEX = ^(bytes)([1-9]*)$` as a predicate. -/
def is_bytes (ty : String) : Bool :=
  ty.data.take 5 = "bytes".data && (ty.data.drop 5).all isDigit19

/-- Model of `SOL_TY_UINT_REGEX = ^(uint)([1-9]*)$`. -/
def is_uint (ty : String) : Bool :=
  ty.data.take 4 = "uint".data && (ty.data.drop 4).all isDigit19

/-- Model of `SOL_TY_INT_REGEX = ^(int)([1-9]*)$`. -/
def is_int (ty : String) : Bool :=
  ty.data.take 3 = "int".data && (ty.data.drop 3).all isDigit19

/-- Model of `SOL_TY_ARRAY_REGEX = ^([a-z1-9]+)(\[([1-9]*)])$`. -/
def is_array (ty : String) : Bool :=
  let cs := ty.data
  let base := cs.takeWhile (fun c => isLowerAlpha c || isDigit19 c)
  let rest := cs.drop base.length
  decide (base ≠ []) &&
    match rest with
    | '[' :: tl =>
      decide (tl ≠ []) && decide (tl.getLast? = some ']') &&
        (tl.take (tl.length - 1)).all isDigit19
    | _ => false

/-- Decimal value of a digit string (`str::parse::<usize>` on a match
of `[1-9]*`; the empty match parses to an error, handled by
`unwrap_or_else(|_| 0)`). -/
def parse_decimal (cs : List Char) : Nat :=
  cs.foldl (fun acc c => acc * 10 + (c.toNat - 48)) 0

/-- Model of `parse_bytes` (src/abi/src/encode.rs:240-247): the captured name
and the size, with 0 for dynamic `bytes`. -/
def parse_bytes (ty : String) : String × Nat :=
  ("bytes", if ty.data.drop 5 = [] then 0 else parse_decimal (ty.data.drop 5))

/-- Which arm of the `match` in `convert_argument`
(src/abi/src/encode.rs:54-223) fires for a given type string, in the
source's order. -/
inductive AbiBranch where
  | stringTy | boolTy | addressTy | tupleTy | bytesTy | arrayTy | uintTy | intTy
  | unsupported
deriving DecidableEq, Repr

def convert_branch (ty : String) : AbiBranch :=
  if ty = "string" then .stringTy
  else if ty = "bool" then .boolTy
  else if ty = "address" then .addressTy
  else if ty = "tuple" then .tupleTy
  else if is_bytes ty then .bytesTy
  else if is_array ty then .arrayTy
  else if is_uint ty then .uintTy
  else if is_int ty then .intTy
  else .unsupported

inductive ConvResult where
  | ok_fixed (bytes : Bytes) (size : Nat)
  | ok_bytes (bytes : Bytes)
  | err (msg : String)
  | panic
deriving DecidableEq, Repr

/-- The bytes arm of `convert_argument`
(src/abi/src/encode.rs:114-143) for a string argument: hex-decode
(`unwrap` panic on bad hex), reject a decoded length different from a
positive declared size, then build `DynSolValue::FixedBytes
(B256::from_slice(bytes), size)` — `B256::from_slice` panics unless the
slice is exactly 32 bytes — or `DynSolValue::Bytes` for dynamic size. -/
def convert_bytes_branch (ty arg : String) : ConvResult :=
  let size := (parse_bytes ty).2
  match hexstring_decode arg with
  | none => .panic
  | some bytes =>
    if size > 0 ∧ bytes.length ≠ size then
      .err (ty ++ " expected length is " ++ toString size ++
        ", but actual length is " ++ toString bytes.length)
    else if size > 0 then
      if bytes.length = 32 then .ok_fixed bytes size else .panic
    else .ok_bytes bytes

/-- The result of `convert_argument` for a type string that reaches the
catch-all arm (src/abi/src/encode.rs:222). -/
def convert_unsupported (ty : String) : ConvResult :=
  .err ("unsupported arg type, " ++ ty)

/-- C9 (code_bug): `bytes10`, `bytes20` and `bytes30` are NOT
recognized as fixed-size bytes types — the regex digit class `[1-9]`
excludes `0`, contradicting the claim (and the source's own comment,
which says the regex matches bytes1–bytes32) — so a well-formed
10-byte argument for `bytes10` falls through every arm to the
unsupported-type error instead of the length check.  For a type the
regex does accept, the length check behaves as claimed on `bytes32`,
but every accepted size other than 32 panics in `B256::from_slice`
even on a correct-length argument. -/
theorem claim_abi_bytes_digit_zero_bug :
    is_bytes "bytes10" = false ∧
    convert_branch "bytes10" = .unsupported ∧
    convert_branch "bytes20" = .unsupported ∧
    convert_branch "bytes30" = .unsupported ∧
    convert_branch "bytes32" = .bytesTy ∧
    convert_branch "bytes19" = .bytesTy ∧
    convert_unsupported "bytes10" = .err "unsupported arg type, bytes10" ∧
    convert_bytes_branch "bytes32" "0x0001" =
      .err "bytes32 expected length is 32, but actual length is 2" ∧
    convert_bytes_branch "bytes32"
      "0x516482b2880721149f75c9aea3b6a6a700022c78561f6e22fbd0d4f73e5e7432" =
      .ok_fixed [0x51, 0x64, 0x82, 0xb2, 0x88, 0x07, 0x21, 0x14, 0x9f, 0x75,
        0xc9, 0xae, 0xa3, 0xb6, 0xa6, 0xa7, 0x00, 0x02, 0x2c, 0x78, 0x56, 0x1f,
        0x6e, 0x22, 0xfb, 0xd0, 0xd4, 0xf7, 0x3e, 0x5e, 0x74, 0x32] 32 ∧
    convert_bytes_branch "bytes5" "0x0102030405" = .panic := by
  refine ⟨by decide, by decide, by decide, by decide, by decide, by decide,
    by decide, by decide, by decide, by decide⟩

end LatticeRs
